import Mathlib

/-!
Verification of the `mrlanu/hash-map` repository: a hash map built from a
bucket array (`Vec<LinkedList<(K, V)>>`) of separately chained entries,
with lazy allocation, load-factor driven doubling and a consuming lookup.

The two source files are embedded shallowly:
* `src/src/linked_list.rs` becomes `LinkedList`: the chain of boxed nodes is
  represented by the list of their elements in order from the head, together
  with the stored `size` counter (which the code maintains separately from
  the actual chain).
* `src/src/lib.rs` becomes `HashMap` and its operations.  The opaque
  `DefaultHasher` is represented by an arbitrary deterministic function
  `hash : K → Nat`; no theorem below depends on particular hash values,
  and concrete evaluations instantiate `hash` with the identity on `Nat`.
  Rust panics (remainder by zero when indexing an unallocated table) are
  modelled as `none` results.

`put` and `resize` are mutually recursive in the source (`resize` reinserts
every entry through `put`).  The embedding stratifies this recursion with a
structural fuel parameter; fuel `2` is enough for one `put` (one optional
resize whose reinsertions never resize again), which is proved for every
state satisfying the representation invariant `Inv`.
-/

set_option autoImplicit false

namespace HashMapSpec

/-- Model of `LinkedList<T>` from `src/src/linked_list.rs`: the nodes
reachable from `head` (as the list of their elements, front first) plus the
stored element count `size`. -/
structure LinkedList (T : Type) where
  head : List T
  size : Nat
deriving DecidableEq

namespace LinkedList

variable {T : Type}

/-- `LinkedList::new()` -/
def new : LinkedList T := ⟨[], 0⟩

/-- `LinkedList::push`: insert at the front in O(1), increment the count. -/
def push (l : LinkedList T) (el : T) : LinkedList T :=
  ⟨el :: l.head, l.size + 1⟩

/-- `LinkedList::pop`: remove and return the front element if any; the stored
count is decremented only when it is positive (the code guards the
subtraction with `if self.size > 0`). -/
def pop (l : LinkedList T) : Option T × LinkedList T :=
  match l.head with
  | [] => (none, l)
  | x :: xs => (some x, ⟨xs, if 0 < l.size then l.size - 1 else l.size⟩)

/-- `LinkedList::peek` -/
def peek (l : LinkedList T) : Option T := l.head.head?

end LinkedList

/-- A push or pop step on a chain, used to state the chain-count invariant
over arbitrary operation sequences. -/
inductive ChainOp (T : Type) where
  | push (el : T)
  | pop

/-- Apply one `ChainOp` (a `pop`'s returned element is discarded). -/
def applyChainOp {T : Type} (l : LinkedList T) : ChainOp T → LinkedList T
  | .push el => l.push el
  | .pop => (l.pop).2

/-- Run a sequence of chain operations from a starting chain. -/
def runChainOps {T : Type} (l : LinkedList T) (ops : List (ChainOp T)) :
    LinkedList T :=
  ops.foldl applyChainOp l

/-- `DEFAULT_CAPACITY` from `src/src/lib.rs`. -/
def DEFAULT_CAPACITY : Nat := 8

/-- Every threshold the code computes is `(c as f32 * DEFAULT_LOAD_FACTOR) as
usize` for a capacity `c`, with `DEFAULT_LOAD_FACTOR = 0.75`.  Since `0.75`
is the dyadic rational 3/4 and the capacities involved are far below 2^24,
the `f32` product is exact and the `as usize` truncation makes this exactly
`c * 3 / 4` in natural-number arithmetic. -/
def thresholdOf (c : Nat) : Nat := c * 3 / 4

/-- Model of `HashMap<K, V>` from `src/src/lib.rs`.  The dead field
`_load_factor` (written once, never read: `resize` uses the constant
`DEFAULT_LOAD_FACTOR`, not the field) is omitted. -/
structure HashMap (K V : Type) where
  table : List (LinkedList (K × V))
  size : Nat
  capacity : Nat
  threshold : Nat
deriving DecidableEq

namespace HashMap

variable {K V : Type} [DecidableEq K]

/-- `HashMap::new()` -/
def new : HashMap K V :=
  ⟨[], 0, DEFAULT_CAPACITY, thresholdOf DEFAULT_CAPACITY⟩

/-- `HashMap::index_for`: `hash(key) as usize % self.table.len()`.  When the
table is unallocated (`len = 0`) the Rust remainder panics, modelled as
`none`. -/
def index_for (hash : K → Nat) (m : HashMap K V) (k : K) : Option Nat :=
  if m.table.length = 0 then none
  else some (hash k % m.table.length)

/-- The in-place replacement performed by
`self.table[index].iter_mut().find(|(k, _v)| *k == new_key)` followed by
`mem::replace(&mut pair.1, new_value)`: scan the chain front to back for the
first entry whose key equals `key`; if found, return the displaced old value
together with the chain where that entry's value was overwritten. -/
def replaceValue (key : K) (value : V) : List (K × V) → Option (V × List (K × V))
  | [] => none
  | (k, v) :: rest =>
    if k = key then some (v, (k, value) :: rest)
    else
      match replaceValue key value rest with
      | some (ov, rest') => some (ov, (k, v) :: rest')
      | none => none

/-- The body of `HashMap::put` after the optional resize: compute the index,
scan the chain at that index, replace in place or push a new entry and
increment `size`. -/
def putCore (hash : K → Nat) (m : HashMap K V) (key : K) (value : V) :
    Option (Option V × HashMap K V) :=
  match index_for hash m key with
  | none => none
  | some index =>
    let bucket := m.table.getD index LinkedList.new
    match replaceValue key value bucket.head with
    | some (ov, chain) =>
      some (some ov, { m with table := m.table.set index ⟨chain, bucket.size⟩ })
    | none =>
      some (none, { m with table := m.table.set index (bucket.push (key, value)),
                           size := m.size + 1 })

/-- The entries stored in the map, listed in the order the code itself
traverses them (bucket 0 first, each chain from its head): the flattening of
the chains.  `resize` drains exactly this sequence and `iter` yields exactly
this sequence. -/
def entries (m : HashMap K V) : List (K × V) :=
  (m.table.map LinkedList.head).flatten

/-- The reinsertion loop inside `HashMap::resize`:
`t.into_iter().for_each(|pair| { self.put(pair.0, pair.1); self.size -= 1; })`
run over every drained entry.  `putStep` is the (fuel-instantiated) `put`;
a `none` from it (a panic or fuel exhaustion) propagates. -/
def reinsertList (putStep : HashMap K V → K → V → Option (Option V × HashMap K V)) :
    List (K × V) → HashMap K V → Option (HashMap K V)
  | [], st => some st
  | (k, v) :: rest, st =>
    match putStep st k v with
    | none => none
    | some (_, st') => reinsertList putStep rest { st' with size := st'.size - 1 }

/-- The body of `HashMap::resize`, parameterised by the `put` used for
reinsertion.  On first use (`table.len() == 0`) it allocates
`DEFAULT_CAPACITY` empty chains and touches nothing else; otherwise it
doubles the table, recomputes `threshold = ((n * 2) as f32 * 0.75) as usize`,
doubles `capacity`, and reinserts every drained entry through `put`,
decrementing `size` after each reinsertion. -/
def resizeAux (putStep : HashMap K V → K → V → Option (Option V × HashMap K V))
    (m : HashMap K V) : Option (HashMap K V) :=
  match m.table.length with
  | 0 => some { m with table := List.replicate DEFAULT_CAPACITY LinkedList.new }
  | n + 1 =>
    reinsertList putStep m.entries
      { m with threshold := thresholdOf ((n + 1) * 2),
               capacity := m.capacity * 2,
               table := List.replicate ((n + 1) * 2) LinkedList.new }

/-- The body of `HashMap::put`, parameterised by the resize it may trigger:
`if self.table.len() == 0 || self.size >= self.threshold { self.resize(); }`
followed by the core insert. -/
def putAux (hash : K → Nat)
    (resizer : HashMap K V → Option (HashMap K V))
    (m : HashMap K V) (key : K) (value : V) :
    Option (Option V × HashMap K V) :=
  if m.table.length = 0 ∨ m.threshold ≤ m.size then
    match resizer m with
    | none => none
    | some m' => putCore hash m' key value
  else putCore hash m key value

/-- `HashMap::put`, with the mutual `put`/`resize` recursion of the source
stratified by a structural fuel parameter: fuel 0 is `none` (never reached
from a state satisfying the invariant when starting with fuel 2). -/
def put (hash : K → Nat) : Nat → HashMap K V → K → V → Option (Option V × HashMap K V)
  | 0, _, _, _ => none
  | fuel + 1, m, key, value => putAux hash (resizeAux (put hash fuel)) m key value

/-- `HashMap::resize`, with the reinsertions run through `put` at the given
fuel. -/
def resize (hash : K → Nat) (fuel : Nat) : HashMap K V → Option (HashMap K V) :=
  resizeAux (put hash fuel)

/-- The loop body of `HashMap::get`:
`temp.into_iter().for_each(|(k, v)| if k == key { self.size -= 1; res = Some(v) } else { new_list.push((k, v)) })`.
Draining `temp` by `pop` yields exactly its head list front to back.  The
state threaded through is `(res, self.size, new_list)`. -/
def getLoop (key : K) : List (K × V) → Nat → LinkedList (K × V) → Option V →
    Option V × Nat × LinkedList (K × V)
  | [], size, newList, res => (res, size, newList)
  | (k, v) :: rest, size, newList, res =>
    if k = key then getLoop key rest (size - 1) newList (some v)
    else getLoop key rest size (newList.push (k, v)) res

/-- `HashMap::get`: the consuming lookup.  It computes the index with no
resize-if-empty guard (so on an unallocated table the Rust remainder panics,
modelled as `none`), replaces the probed bucket by a fresh chain, drains the
old bucket, keeping non-matching entries by pushing them onto the fresh
chain (which reverses their order) and recording a matching entry's value
while decrementing `size`, and finally stores the rebuilt chain back only if
it is non-empty (otherwise the bucket keeps the fresh empty chain). -/
def get (hash : K → Nat) (m : HashMap K V) (key : K) :
    Option (Option V × HashMap K V) :=
  match index_for hash m key with
  | none => none
  | some index =>
    let temp := m.table.getD index LinkedList.new
    let r := getLoop key temp.head m.size LinkedList.new none
    let newBucket := if 0 < r.2.2.size then r.2.2 else LinkedList.new
    some (r.1, { m with size := r.2.1, table := m.table.set index newBucket })

/-- The bucket-scanning loop shared by `HashMap::iter()` and
`Iter::next()`: starting from the table suffix still to be examined, skip
buckets whose stored `size()` is `0`; on the first bucket with a non-zero
stored size return its chain together with the suffix after it; return
`none` when the suffix is exhausted (`self.index == self.table.len()`).
Rust's `Iter` keeps an index into the table; since the iterator only ever
reads `table[index..]`, that pair is represented here by the suffix
itself. -/
def scanBuckets : List (LinkedList (K × V)) →
    Option (List (K × V)) × List (LinkedList (K × V))
  | [] => (none, [])
  | b :: bs => if b.size = 0 then scanBuckets bs else (some b.head, bs)

/-- The state of the borrowing iterator `Iter<'a, K, V>`: the table suffix
not yet scanned (Rust: `index` into `table`) and the remaining elements of
the chain currently being walked (Rust: `iter: Option<IterLL>`). -/
structure MapIter (K V : Type) where
  rest : List (LinkedList (K × V))
  iter : Option (List (K × V))
deriving DecidableEq

/-- `<Iter as Iterator>::next`: yield the next element of the current chain
if any; on chain exhaustion scan forward for the next bucket with non-zero
stored size and yield its first element.  The `some []` inner case mirrors
`break self.iter.as_mut().unwrap().next()` returning `None` when a bucket
reports a non-zero size but has an empty chain (impossible in consistent
states). -/
def MapIter.next : MapIter K V → Option ((K × V) × MapIter K V)
  | ⟨_, none⟩ => none
  | ⟨rest, some (e :: c)⟩ => some (e, ⟨rest, some c⟩)
  | ⟨rest, some []⟩ =>
    match scanBuckets rest with
    | (some (e :: c), rest') => some (e, ⟨rest', some c⟩)
    | (some [], _) => none
    | (none, _) => none

/-- `HashMap::iter()`: scan from bucket 0 for the first chain with non-zero
stored size and start the iterator there (or with no chain at all if every
bucket is empty). -/
def iterInit (m : HashMap K V) : MapIter K V :=
  match scanBuckets m.table with
  | (some c, rest) => ⟨rest, some c⟩
  | (none, rest) => ⟨rest, none⟩

/-- Repeatedly call `MapIter.next`, collecting the yielded elements, with a
structural fuel bound (the recursion of a full traversal is bounded but not
structural). -/
def drainF : Nat → MapIter K V → List (K × V)
  | 0, _ => []
  | fuel + 1, it =>
    match it.next with
    | none => []
    | some (e, it') => e :: drainF fuel it'

/-- An upper bound on the number of `next` calls a full traversal from the
given iterator state can make. -/
def iterFuel (it : MapIter K V) : Nat :=
  (it.rest.map (fun b => b.head.length)).sum + it.rest.length +
    (it.iter.getD []).length + 1

/-- The full traversal of `m.iter()`: call `next` until it first returns
`None`, collecting every yielded entry. -/
def traverse (m : HashMap K V) : List (K × V) :=
  drainF (iterFuel (iterInit m)) (iterInit m)

end HashMap

/-- Every chain of the table keeps a stored count equal to the number of its
reachable nodes. -/
def consistentTable {K V : Type} (t : List (LinkedList (K × V))) : Prop :=
  ∀ b ∈ t, b.size = b.head.length

/-- Every entry lives in the chain selected by its key's hash modulo the
current bucket count. -/
def placedTable {K V : Type} (hash : K → Nat) (t : List (LinkedList (K × V))) : Prop :=
  ∀ i ∈ List.range t.length,
    ∀ e ∈ (t.getD i LinkedList.new).head, hash e.1 % t.length = i

/-- The capacity/threshold bookkeeping of reachable maps: either the table
is still unallocated (fresh map: no entries, the constructor's capacity 8
and threshold 6), or the table is allocated, `capacity` mirrors the bucket
count, `threshold` is `capacity * 3 / 4` and `size` has not passed the
threshold (a `put` resizes as soon as `size` reaches it). -/
def cfgOk {K V : Type} (m : HashMap K V) : Prop :=
  (m.table.length = 0 ∧ m.size = 0 ∧ m.capacity = 8 ∧ m.threshold = 6) ∨
    (0 < m.table.length ∧ m.capacity = m.table.length ∧
      m.threshold = thresholdOf m.table.length ∧ m.size ≤ m.threshold)

/-- The representation invariant of the map: the stored `size` counts the
entries, keys are pairwise distinct across the whole table, chain counts are
consistent, every entry sits in its hash bucket, and the capacity/threshold
bookkeeping is as maintained by the code.  `Inv` holds for `HashMap.new` and
is preserved by `put` and `get` (proved below), so it holds for every
reachable map. -/
def Inv {K V : Type} [DecidableEq K] (hash : K → Nat) (m : HashMap K V) : Prop :=
  m.size = m.entries.length ∧
    (m.entries.map Prod.fst).Nodup ∧
    consistentTable m.table ∧
    placedTable hash m.table ∧
    cfgOk m

instance {K V : Type} [DecidableEq K] (hash : K → Nat) (m : HashMap K V) :
    Decidable (Inv hash m) := by
  unfold Inv cfgOk consistentTable placedTable
  infer_instance

/-- Remove every entry with the given key (for maps satisfying `Inv` there
is at most one). -/
def eraseKey {K V : Type} [DecidableEq K] (k : K) (es : List (K × V)) : List (K × V) :=
  es.filter (fun e => decide (e.1 ≠ k))

/-- The keys of an entry list. -/
def keysOf {K V : Type} (es : List (K × V)) : List K := es.map Prod.fst

namespace HashMap

variable {K V : Type} [DecidableEq K]

/-- Run a sequence of `put` calls (each with fuel 2, which suffices from any
state satisfying `Inv`), propagating a panic or fuel exhaustion as `none`. -/
def putSeq (hash : K → Nat) : List (K × V) → HashMap K V → Option (HashMap K V)
  | [], m => some m
  | (k, v) :: rest, m =>
    match put hash 2 m k v with
    | none => none
    | some (_, m') => putSeq hash rest m'

/-- The map state after a `put`, or the input state if `put` fails (it never
fails from a state satisfying `Inv`). -/
def putAfter (hash : K → Nat) (m : HashMap K V) (k : K) (v : V) : HashMap K V :=
  match put hash 2 m k v with
  | some (_, m') => m'
  | none => m

/-- The previous value returned by a `put` (`none` also on failure). -/
def putPrev (hash : K → Nat) (m : HashMap K V) (k : K) (v : V) : Option V :=
  match put hash 2 m k v with
  | some (r, _) => r
  | none => none

/-- The map state after a `get`, or the input state if `get` panics. -/
def getAfter (hash : K → Nat) (m : HashMap K V) (k : K) : HashMap K V :=
  match get hash m k with
  | some (_, m') => m'
  | none => m

/-- The value returned by a `get` (`none` also on a panic). -/
def getResult (hash : K → Nat) (m : HashMap K V) (k : K) : Option V :=
  match get hash m k with
  | some (r, _) => r
  | none => none

end HashMap

/-- The chain stored at bucket `i` (the empty chain when `i` is out of
range; every use below has `i < t.length`). -/
def bucketAt {K V : Type} (t : List (LinkedList (K × V))) (i : Nat) :
    LinkedList (K × V) :=
  t.getD i LinkedList.new

/-- The entries of a bucket table in traversal order. -/
def tableEntries {K V : Type} (t : List (LinkedList (K × V))) : List (K × V) :=
  (t.map LinkedList.head).flatten

/-- The map obtained by running a sequence of puts on a fresh map (the
fallback is never reached: `putSeq` succeeds from `HashMap.new`). -/
def putSeqAfter {K V : Type} [DecidableEq K] (hash : K → Nat)
    (ps : List (K × V)) : HashMap K V :=
  (HashMap.putSeq hash ps HashMap.new).getD HashMap.new

/-- The map after a standalone `resize` (fuel 1 suffices from any state
satisfying the invariant); the fallback is never reached there. -/
def resizeAfter {K V : Type} [DecidableEq K] (hash : K → Nat) (m : HashMap K V) :
    HashMap K V :=
  (HashMap.resize hash 1 m).getD m

/-- The bucket count after inserting `c` distinct keys into a fresh map:
`0` before the first insertion; the first insertion allocates 8 buckets; an
insertion finding `size = c` at or past the threshold `L * 3 / 4` doubles
the table first. -/
def lenAfter : Nat → Nat
  | 0 => 0
  | c + 1 =>
    if lenAfter c = 0 then 8
    else if thresholdOf (lenAfter c) ≤ c then lenAfter c * 2
    else lenAfter c

/-! ### Basic facts about `tableEntries` and the table structure -/

section TableLemmas

variable {K V : Type}

theorem entries_eq_tableEntries (m : HashMap K V) :
    m.entries = tableEntries m.table := rfl

@[simp] theorem tableEntries_nil : tableEntries ([] : List (LinkedList (K × V))) = [] := rfl

@[simp] theorem tableEntries_cons (b : LinkedList (K × V)) (t : List (LinkedList (K × V))) :
    tableEntries (b :: t) = b.head ++ tableEntries t := rfl

theorem tableEntries_append (t₁ t₂ : List (LinkedList (K × V))) :
    tableEntries (t₁ ++ t₂) = tableEntries t₁ ++ tableEntries t₂ := by
  simp [tableEntries]

@[simp] theorem tableEntries_replicate (n : Nat) :
    tableEntries (List.replicate n (LinkedList.new : LinkedList (K × V))) = [] := by
  induction n with
  | zero => rfl
  | succ n ih => simpa [List.replicate_succ, LinkedList.new] using ih

theorem mem_tableEntries {t : List (LinkedList (K × V))} {e : K × V} :
    e ∈ tableEntries t ↔ ∃ b ∈ t, e ∈ b.head := by
  simp only [tableEntries, List.mem_flatten, List.mem_map]
  constructor
  · rintro ⟨l, ⟨b, hb, rfl⟩, he⟩
    exact ⟨b, hb, he⟩
  · rintro ⟨b, hb, he⟩
    exact ⟨b.head, ⟨b, hb, rfl⟩, he⟩

theorem bucketAt_lt {t : List (LinkedList (K × V))} {i : Nat} (h : i < t.length) :
    bucketAt t i = t[i] := by
  simp [bucketAt, List.getD_eq_getElem, h]

theorem tableEntries_decomp {t : List (LinkedList (K × V))} {i : Nat}
    (h : i < t.length) :
    tableEntries t =
      tableEntries (t.take i) ++ (bucketAt t i).head ++ tableEntries (t.drop (i + 1)) := by
  conv_lhs => rw [← List.take_append_drop i t, List.drop_eq_getElem_cons h]
  rw [tableEntries_append, tableEntries_cons, bucketAt_lt h, List.append_assoc]

theorem tableEntries_set {t : List (LinkedList (K × V))} {i : Nat}
    (h : i < t.length) (b : LinkedList (K × V)) :
    tableEntries (t.set i b) =
      tableEntries (t.take i) ++ b.head ++ tableEntries (t.drop (i + 1)) := by
  rw [List.set_eq_take_cons_drop _ h, tableEntries_append, tableEntries_cons,
    List.append_assoc]

theorem mem_bucket_mem_tableEntries {t : List (LinkedList (K × V))} {i : Nat}
    (h : i < t.length) {e : K × V} (he : e ∈ (bucketAt t i).head) :
    e ∈ tableEntries t := by
  rw [mem_tableEntries]
  exact ⟨bucketAt t i, by rw [bucketAt_lt h]; exact t.getElem_mem h, he⟩

/-- Restated form of `placedTable` without the `List.range` detour. -/
theorem placedTable_iff {hash : K → Nat} {t : List (LinkedList (K × V))} :
    placedTable hash t ↔
      ∀ i, i < t.length → ∀ e ∈ (bucketAt t i).head, hash e.1 % t.length = i := by
  unfold placedTable
  simp [List.mem_range, bucketAt]

/-- In a placed table, an entry of the flattening with key `k` lives in the
bucket `hash k % t.length`. -/
theorem mem_bucket_of_mem_tableEntries (hash : K → Nat)
    {t : List (LinkedList (K × V))} (hp : placedTable hash t) {e : K × V}
    (he : e ∈ tableEntries t) :
    e ∈ (bucketAt t (hash e.1 % t.length)).head := by
  rcases mem_tableEntries.mp he with ⟨b, hb, hbe⟩
  rcases List.mem_iff_getElem.mp hb with ⟨j, hj, rfl⟩
  have := (placedTable_iff.mp hp) j hj e (by rwa [bucketAt_lt hj])
  rw [this]
  rwa [bucketAt_lt hj]

/-- If the key is absent from its own hash bucket of a placed table, it is
absent from the whole table. -/
theorem not_mem_keys_of_not_mem_bucket {hash : K → Nat}
    {t : List (LinkedList (K × V))} (hp : placedTable hash t) {k : K}
    (hk : ∀ e ∈ (bucketAt t (hash k % t.length)).head, e.1 ≠ k) :
    k ∉ keysOf (tableEntries t) := by
  intro hmem
  rcases List.mem_map.mp hmem with ⟨e, he, hke⟩
  subst hke
  exact hk e (mem_bucket_of_mem_tableEntries hash hp he) rfl

/-- The keys of one bucket form a sublist of the keys of the flattening, so
global key distinctness restricts to every bucket. -/
theorem bucket_keys_nodup {t : List (LinkedList (K × V))}
    (hnd : (keysOf (tableEntries t)).Nodup) {i : Nat} (h : i < t.length) :
    (keysOf (bucketAt t i).head).Nodup := by
  apply List.Nodup.sublist _ hnd
  apply List.Sublist.map
  apply List.sublist_flatten_of_mem
  rw [bucketAt_lt h]
  exact List.mem_map_of_mem LinkedList.head (t.getElem_mem h)

end TableLemmas

/-! ### Association-list facts: `eraseKey`, unique matches, `replaceValue` -/

section AssocLemmas

set_option linter.unusedSectionVars false

variable {K V : Type} [DecidableEq K]

@[simp] theorem keysOf_nil : keysOf ([] : List (K × V)) = [] := rfl

@[simp] theorem keysOf_cons (e : K × V) (l : List (K × V)) :
    keysOf (e :: l) = e.1 :: keysOf l := rfl

theorem keysOf_append (l₁ l₂ : List (K × V)) :
    keysOf (l₁ ++ l₂) = keysOf l₁ ++ keysOf l₂ := by
  simp [keysOf]

theorem mem_keysOf_of_mem {l : List (K × V)} {e : K × V} (h : e ∈ l) :
    e.1 ∈ keysOf l :=
  List.mem_map_of_mem Prod.fst h

@[simp] theorem eraseKey_nil (k : K) : eraseKey k ([] : List (K × V)) = [] := rfl

theorem eraseKey_cons_self {k : K} {v : V} {l : List (K × V)} :
    eraseKey k ((k, v) :: l) = eraseKey k l := by
  simp [eraseKey]

theorem eraseKey_cons_ne {k k0 : K} {v : V} {l : List (K × V)} (h : k0 ≠ k) :
    eraseKey k ((k0, v) :: l) = (k0, v) :: eraseKey k l := by
  simp [eraseKey, h]

theorem eraseKey_of_not_mem {k : K} {l : List (K × V)} (h : k ∉ keysOf l) :
    eraseKey k l = l := by
  apply List.filter_eq_self.mpr
  intro e he
  simp only [decide_eq_true_eq]
  intro hk
  exact h (hk ▸ mem_keysOf_of_mem he)

theorem eraseKey_sublist (k : K) (l : List (K × V)) :
    List.Sublist (eraseKey k l) l :=
  List.filter_sublist l

theorem mem_eraseKey {k : K} {l : List (K × V)} {e : K × V} :
    e ∈ eraseKey k l ↔ e ∈ l ∧ e.1 ≠ k := by
  simp [eraseKey, List.mem_filter]

theorem not_mem_keysOf_eraseKey (k : K) (l : List (K × V)) :
    k ∉ keysOf (eraseKey k l) := by
  intro h
  rcases List.mem_map.mp h with ⟨e, he, hke⟩
  exact (mem_eraseKey.mp he).2 hke

theorem eraseKey_append (k : K) (l₁ l₂ : List (K × V)) :
    eraseKey k (l₁ ++ l₂) = eraseKey k l₁ ++ eraseKey k l₂ := by
  simp [eraseKey]

/-- In a list with pairwise-distinct keys, an entry containing a present key
is unique. -/
theorem value_unique {l : List (K × V)} (hnd : (keysOf l).Nodup) {k : K}
    {w w' : V} (h : (k, w) ∈ l) (h' : (k, w') ∈ l) : w = w' := by
  induction l with
  | nil => cases h
  | cons e rest ih =>
    obtain ⟨k0, v0⟩ := e
    rw [keysOf_cons] at hnd
    have h1 : k0 ∉ keysOf rest := (List.nodup_cons.mp hnd).1
    have h2 := (List.nodup_cons.mp hnd).2
    rcases List.mem_cons.mp h with he | hr
    · injection he with hk hv
      subst hk
      rcases List.mem_cons.mp h' with he' | hr'
      · injection he' with _ hv'
        rw [hv, hv']
      · exact absurd (mem_keysOf_of_mem hr') h1
    · rcases List.mem_cons.mp h' with he' | hr'
      · injection he' with hk' hv'
        subst hk'
        exact absurd (mem_keysOf_of_mem hr) h1
      · exact ih h2 hr hr'

theorem perm_cons_eraseKey {l : List (K × V)} (hnd : (keysOf l).Nodup) {k : K}
    {w : V} (h : (k, w) ∈ l) : l.Perm ((k, w) :: eraseKey k l) := by
  induction l with
  | nil => cases h
  | cons e rest ih =>
    obtain ⟨k0, v0⟩ := e
    rw [keysOf_cons] at hnd
    have h1 : k0 ∉ keysOf rest := (List.nodup_cons.mp hnd).1
    have h2 := (List.nodup_cons.mp hnd).2
    rcases List.mem_cons.mp h with he | hr
    · have hk := (Prod.ext_iff.mp he).1
      have hv := (Prod.ext_iff.mp he).2
      subst hk
      subst hv
      rw [eraseKey_cons_self, eraseKey_of_not_mem h1]
    · have hek : k0 ≠ k := by
        rintro rfl
        exact h1 (mem_keysOf_of_mem hr)
      rw [eraseKey_cons_ne hek]
      exact ((ih h2 hr).cons _).trans (List.Perm.swap _ _ _)

theorem length_eraseKey {l : List (K × V)} (hnd : (keysOf l).Nodup) {k : K}
    {w : V} (h : (k, w) ∈ l) : (eraseKey k l).length + 1 = l.length := by
  have := (perm_cons_eraseKey hnd h).length_eq
  simp only [List.length_cons] at this
  omega

namespace HashMap

theorem replaceValue_of_not_mem {k : K} (v : V) {l : List (K × V)}
    (h : k ∉ keysOf l) : replaceValue k v l = none := by
  induction l with
  | nil => rfl
  | cons e rest ih =>
    obtain ⟨k0, v0⟩ := e
    rw [keysOf_cons, List.mem_cons] at h
    push_neg at h
    rw [replaceValue, if_neg (fun hc => h.1 hc.symm), ih h.2]

theorem not_mem_of_replaceValue_eq_none {k : K} {v : V} {l : List (K × V)}
    (h : replaceValue k v l = none) : k ∉ keysOf l := by
  induction l with
  | nil => simp
  | cons e rest ih =>
    obtain ⟨k0, v0⟩ := e
    rw [replaceValue] at h
    by_cases hk : k0 = k
    · rw [if_pos hk] at h
      cases h
    · rw [if_neg hk] at h
      rw [keysOf_cons, List.mem_cons]
      rcases hrv : replaceValue k v rest with _ | p
      · rintro (rfl | hm)
        · exact hk rfl
        · exact ih hrv hm
      · obtain ⟨ov, rest'⟩ := p
        rw [hrv] at h
        cases h

/-- Characterisation of a successful in-place replacement in a chain with
pairwise-distinct keys: the displaced value is the stored one, the key list
is unchanged, and up to permutation the chain now holds the new entry
together with everything except the displaced entry. -/
theorem replaceValue_some_spec {l : List (K × V)} (hnd : (keysOf l).Nodup)
    {k : K} {w : V} (hm : (k, w) ∈ l) (v : V) :
    ∃ l', replaceValue k v l = some (w, l') ∧ keysOf l' = keysOf l ∧
      l'.length = l.length ∧ l'.Perm ((k, v) :: eraseKey k l) := by
  induction l with
  | nil => cases hm
  | cons e rest ih =>
    obtain ⟨k0, v0⟩ := e
    rw [keysOf_cons] at hnd
    have h1 : k0 ∉ keysOf rest := (List.nodup_cons.mp hnd).1
    have h2 := (List.nodup_cons.mp hnd).2
    by_cases hk : k0 = k
    · subst hk
      have hw : w = v0 := by
        rcases List.mem_cons.mp hm with he | hr
        · exact (Prod.ext_iff.mp he).2
        · exact absurd (mem_keysOf_of_mem hr) h1
      subst hw
      refine ⟨(k0, v) :: rest, ?_, by simp, by simp, ?_⟩
      · rw [replaceValue, if_pos rfl]
      · rw [eraseKey_cons_self, eraseKey_of_not_mem h1]
    · have hr : (k, w) ∈ rest := by
        rcases List.mem_cons.mp hm with he | hr
        · injection he with hk' _
          exact absurd hk'.symm hk
        · exact hr
      rcases ih h2 hr with ⟨rest', hrv, hkeys, hlen, hperm⟩
      refine ⟨(k0, v0) :: rest', ?_, by simp [hkeys], by simp [hlen], ?_⟩
      · rw [replaceValue, if_neg hk, hrv]
      · rw [eraseKey_cons_ne hk]
        exact ((hperm.cons _).trans (List.Perm.swap _ _ _))

end HashMap

end AssocLemmas

/-! ### Updating one bucket of the table -/

section SetLemmas

variable {K V : Type}

theorem bucketAt_set_self {t : List (LinkedList (K × V))} {i : Nat}
    (h : i < t.length) (b : LinkedList (K × V)) :
    bucketAt (t.set i b) i = b := by
  rw [bucketAt, List.getD_eq_getElem?_getD, List.getElem?_set_self (by simpa using h)]
  rfl

theorem bucketAt_set_ne {t : List (LinkedList (K × V))} {i j : Nat}
    (h : i ≠ j) (b : LinkedList (K × V)) :
    bucketAt (t.set i b) j = bucketAt t j := by
  rw [bucketAt, bucketAt, List.getD_eq_getElem?_getD, List.getD_eq_getElem?_getD,
    List.getElem?_set_ne h]

theorem consistentTable_set {t : List (LinkedList (K × V))} {i : Nat}
    {b : LinkedList (K × V)} (ht : consistentTable t) (hb : b.size = b.head.length) :
    consistentTable (t.set i b) := by
  intro x hx
  rcases List.mem_or_eq_of_mem_set hx with hx' | rfl
  · exact ht x hx'
  · exact hb

theorem placedTable_set {hash : K → Nat} {t : List (LinkedList (K × V))} {i : Nat}
    {b : LinkedList (K × V)} (ht : placedTable hash t) (hi : i < t.length)
    (hb : ∀ e ∈ b.head, hash e.1 % t.length = i) :
    placedTable hash (t.set i b) := by
  rw [placedTable_iff]
  intro j hj e he
  rw [List.length_set] at hj ⊢
  by_cases hij : i = j
  · subst hij
    rw [bucketAt_set_self hi] at he
    exact hb e he
  · rw [bucketAt_set_ne hij] at he
    exact (placedTable_iff.mp ht) j hj e he

/-- An entry of the flattening of `t.take i` sits in a bucket of `t` with
index below `i`. -/
theorem mem_take_entries {t : List (LinkedList (K × V))} {i : Nat} {e : K × V}
    (he : e ∈ tableEntries (t.take i)) :
    ∃ j, j < i ∧ j < t.length ∧ e ∈ (bucketAt t j).head := by
  rcases mem_tableEntries.mp he with ⟨b, hb, hbe⟩
  rcases List.mem_iff_getElem.mp hb with ⟨j, hj, rfl⟩
  have hjlen : j < t.length := lt_of_lt_of_le hj (by simp [List.length_take])
  have hji : j < i := lt_of_lt_of_le hj (by simp [List.length_take])
  refine ⟨j, hji, hjlen, ?_⟩
  rw [bucketAt_lt hjlen]
  have : (t.take i)[j] = t[j] := List.getElem_take ..
  rwa [this] at hbe

/-- An entry of the flattening of `t.drop (i + 1)` sits in a bucket of `t`
with index above `i`. -/
theorem mem_drop_entries {t : List (LinkedList (K × V))} {i : Nat} {e : K × V}
    (he : e ∈ tableEntries (t.drop (i + 1))) :
    ∃ j, i < j ∧ j < t.length ∧ e ∈ (bucketAt t j).head := by
  rcases mem_tableEntries.mp he with ⟨b, hb, hbe⟩
  rcases List.mem_iff_getElem.mp hb with ⟨j, hj, rfl⟩
  rw [List.length_drop] at hj
  have hjlen : i + 1 + j < t.length := by omega
  refine ⟨i + 1 + j, by omega, hjlen, ?_⟩
  rw [bucketAt_lt hjlen]
  have : (t.drop (i + 1))[j] = t[i + 1 + j] := by
    rw [List.getElem_drop]
  rwa [this] at hbe

/-- In a placed table no entry outside bucket `hash k % len` carries the key
`k`: the `take`/`drop` flanks of that bucket are `eraseKey`-invariant. -/
theorem eraseKey_flanks (hash : K → Nat) {t : List (LinkedList (K × V))}
    [DecidableEq K] (hp : placedTable hash t) {k : K} :
    eraseKey k (tableEntries (t.take (hash k % t.length))) =
        tableEntries (t.take (hash k % t.length)) ∧
      eraseKey k (tableEntries (t.drop (hash k % t.length + 1))) =
        tableEntries (t.drop (hash k % t.length + 1)) := by
  constructor
  · apply eraseKey_of_not_mem
    intro hmem
    rcases List.mem_map.mp hmem with ⟨e, he, hke⟩
    rcases mem_take_entries he with ⟨j, hji, hjlen, hbe⟩
    have := (placedTable_iff.mp hp) j hjlen e hbe
    rw [hke] at this
    omega
  · apply eraseKey_of_not_mem
    intro hmem
    rcases List.mem_map.mp hmem with ⟨e, he, hke⟩
    rcases mem_drop_entries he with ⟨j, hji, hjlen, hbe⟩
    have := (placedTable_iff.mp hp) j hjlen e hbe
    rw [hke] at this
    omega

end SetLemmas

/-! ### The consuming lookup `get` -/

section GetLemmas

variable {K V : Type} [DecidableEq K]

namespace HashMap

theorem getLoop_not_mem {k : K} {l : List (K × V)} (h : k ∉ keysOf l)
    (s : Nat) (acc : LinkedList (K × V)) (res : Option V) :
    getLoop k l s acc res =
      (res, s, ⟨l.reverse ++ acc.head, acc.size + l.length⟩) := by
  induction l generalizing acc with
  | nil => simp [getLoop]
  | cons e rest ih =>
    obtain ⟨k0, v0⟩ := e
    rw [keysOf_cons, List.mem_cons] at h
    push_neg at h
    rw [getLoop, if_neg (fun hc => h.1 hc.symm), ih h.2]
    simp only [LinkedList.push, List.reverse_cons, List.append_assoc,
      List.singleton_append, List.length_cons, Prod.mk.injEq, LinkedList.mk.injEq,
      true_and]
    omega

theorem getLoop_mem {l : List (K × V)} (hnd : (keysOf l).Nodup) {k : K} {w : V}
    (hm : (k, w) ∈ l) (s : Nat) (acc : LinkedList (K × V)) :
    getLoop k l s acc none =
      (some w, s - 1,
        ⟨(eraseKey k l).reverse ++ acc.head, acc.size + (l.length - 1)⟩) := by
  induction l generalizing acc with
  | nil => cases hm
  | cons e rest ih =>
    obtain ⟨k0, v0⟩ := e
    rw [keysOf_cons] at hnd
    have h1 : k0 ∉ keysOf rest := (List.nodup_cons.mp hnd).1
    have h2 := (List.nodup_cons.mp hnd).2
    by_cases hk : k0 = k
    · subst hk
      have hw : w = v0 := by
        rcases List.mem_cons.mp hm with he | hr
        · exact (Prod.ext_iff.mp he).2
        · exact absurd (mem_keysOf_of_mem hr) h1
      subst hw
      rw [getLoop, if_pos rfl, getLoop_not_mem h1, eraseKey_cons_self,
        eraseKey_of_not_mem h1]
      simp
    · have hr : (k, w) ∈ rest := by
        rcases List.mem_cons.mp hm with he | hr
        · exact absurd (Prod.ext_iff.mp he).1.symm hk
        · exact hr
      have hrpos : 0 < rest.length := List.length_pos.mpr (List.ne_nil_of_mem hr)
      rw [getLoop, if_neg hk, ih h2 hr]
      rw [eraseKey_cons_ne hk]
      simp only [LinkedList.push, List.reverse_cons, List.append_assoc,
        List.singleton_append, List.length_cons, Prod.mk.injEq, LinkedList.mk.injEq,
        true_and]
      omega

/-- The probed bucket after a `get`, independent of the hit/miss `if` in the
code: the kept entries, reversed, with a freshly recounted size.  (On the
empty outcome both branches of `if new_list.size() > 0` store an empty chain
with count zero.) -/
theorem get_eq_of_lt {hash : K → Nat} {m : HashMap K V} {k : K}
    (hL : 0 < m.table.length) :
    get hash m k =
      some ((getLoop k (bucketAt m.table (hash k % m.table.length)).head
              m.size LinkedList.new none).1,
        { m with
          size := (getLoop k (bucketAt m.table (hash k % m.table.length)).head
                    m.size LinkedList.new none).2.1,
          table := m.table.set (hash k % m.table.length)
            (if 0 < (getLoop k (bucketAt m.table (hash k % m.table.length)).head
                      m.size LinkedList.new none).2.2.size
             then (getLoop k (bucketAt m.table (hash k % m.table.length)).head
                    m.size LinkedList.new none).2.2
             else LinkedList.new) }) := by
  rw [get, index_for, if_neg (by omega)]
  rfl

/-- `get` on a miss whose probed bucket does not hold the key: result is
empty, `size` is unchanged, and the probed bucket is rebuilt reversed with a
consistent count. -/
theorem get_miss_eq (hash : K → Nat) {m : HashMap K V} {k : K}
    (hL : 0 < m.table.length)
    (hk : k ∉ keysOf (bucketAt m.table (hash k % m.table.length)).head) :
    get hash m k =
      some (none,
        { m with
          table := m.table.set (hash k % m.table.length)
            (LinkedList.mk (bucketAt m.table (hash k % m.table.length)).head.reverse
              (bucketAt m.table (hash k % m.table.length)).head.length) }) := by
  rw [get_eq_of_lt hL, getLoop_not_mem hk]
  simp only [List.append_nil, Nat.zero_add]
  rcases hcase : (bucketAt m.table (hash k % m.table.length)).head with _ | ⟨e, l⟩
  · simp [LinkedList.new]
  · simp [hcase, LinkedList.new]

/-- `get` on a hit in a bucket with pairwise-distinct keys: the stored value
is returned, `size` drops by one, and the probed bucket is rebuilt without
the entry, reversed, with a consistent count. -/
theorem get_hit_eq (hash : K → Nat) {m : HashMap K V} {k : K} {w : V}
    (hL : 0 < m.table.length)
    (hnd : (keysOf (bucketAt m.table (hash k % m.table.length)).head).Nodup)
    (hm : (k, w) ∈ (bucketAt m.table (hash k % m.table.length)).head) :
    get hash m k =
      some (some w,
        { m with
          size := m.size - 1,
          table := m.table.set (hash k % m.table.length)
            (LinkedList.mk
              (eraseKey k (bucketAt m.table (hash k % m.table.length)).head).reverse
              ((bucketAt m.table (hash k % m.table.length)).head.length - 1)) }) := by
  rw [get_eq_of_lt hL, getLoop_mem hnd hm]
  simp only [List.append_nil, Nat.zero_add]
  have hlen := length_eraseKey hnd hm
  rcases hcase : eraseKey k (bucketAt m.table (hash k % m.table.length)).head with _ | ⟨e, l⟩
  · rw [hcase] at hlen
    simp only [List.length_nil] at hlen
    have : (bucketAt m.table (hash k % m.table.length)).head.length - 1 = 0 := by omega
    simp [this, LinkedList.new]
  · rw [hcase] at hlen
    have hpos : 0 < (bucketAt m.table (hash k % m.table.length)).head.length - 1 := by
      simp only [List.length_cons] at hlen
      omega
    simp [LinkedList.new, hpos]

end HashMap

end GetLemmas

/-! ### `get` at the level of the representation invariant -/

section GetSpec

set_option linter.unusedSectionVars false

variable {K V : Type} [DecidableEq K]

namespace HashMap

theorem table_length_pos_of_mem {m : HashMap K V}
    {e : K × V} (hm : e ∈ m.entries) :
    0 < m.table.length := by
  rcases Nat.eq_zero_or_pos m.table.length with h0 | h
  · rw [List.length_eq_zero] at h0
    rw [entries_eq_tableEntries, h0] at hm
    cases hm
  · exact h

/-- Frame conditions of a missed `get` on an allocated table: nothing but
the probed bucket changes, and that bucket is rebuilt reversed. -/
theorem get_miss_spec (hash : K → Nat) {m : HashMap K V} {k : K}
    (hL : 0 < m.table.length)
    (hk : k ∉ keysOf (bucketAt m.table (hash k % m.table.length)).head) :
    getResult hash m k = none ∧
      (getAfter hash m k).size = m.size ∧
      (getAfter hash m k).capacity = m.capacity ∧
      (getAfter hash m k).threshold = m.threshold ∧
      (getAfter hash m k).table.length = m.table.length ∧
      bucketAt (getAfter hash m k).table (hash k % m.table.length) =
        LinkedList.mk (bucketAt m.table (hash k % m.table.length)).head.reverse
          (bucketAt m.table (hash k % m.table.length)).head.length ∧
      (∀ j, j ≠ hash k % m.table.length →
        bucketAt (getAfter hash m k).table j = bucketAt m.table j) ∧
      (getAfter hash m k).entries.Perm m.entries := by
  have hidx : hash k % m.table.length < m.table.length := Nat.mod_lt _ hL
  have heq := get_miss_eq hash hL hk
  have hA : getAfter hash m k =
      { m with
        table := m.table.set (hash k % m.table.length)
          (LinkedList.mk (bucketAt m.table (hash k % m.table.length)).head.reverse
            (bucketAt m.table (hash k % m.table.length)).head.length) } := by
    rw [getAfter, heq]
  have hR : getResult hash m k = none := by rw [getResult, heq]
  refine ⟨hR, by rw [hA], by rw [hA], by rw [hA], by rw [hA]; simp, ?_, ?_, ?_⟩
  · rw [hA]
    exact bucketAt_set_self hidx _
  · intro j hj
    rw [hA]
    exact bucketAt_set_ne (fun hc => hj hc.symm) _
  · rw [hA, entries_eq_tableEntries, entries_eq_tableEntries]
    show tableEntries (m.table.set (hash k % m.table.length) _) |>.Perm _
    rw [tableEntries_set hidx]
    conv_rhs => rw [tableEntries_decomp hidx]
    exact (List.Perm.append_right _
      ((List.Perm.refl _).append (List.reverse_perm _)))

/-- A missed `get` on an allocated table preserves the representation
invariant. -/
theorem get_miss_inv {hash : K → Nat} {m : HashMap K V} {k : K}
    (hInv : Inv hash m) (hL : 0 < m.table.length)
    (hk : k ∉ keysOf m.entries) :
    Inv hash (getAfter hash m k) := by
  obtain ⟨hsz, hnd, hcons, hplc, hcfg⟩ := hInv
  have hidx : hash k % m.table.length < m.table.length := Nat.mod_lt _ hL
  have hkB : k ∉ keysOf (bucketAt m.table (hash k % m.table.length)).head := by
    intro hc
    rcases List.mem_map.mp hc with ⟨e, he, hke⟩
    exact hk (hke ▸ mem_keysOf_of_mem
      (mem_bucket_mem_tableEntries hidx he))
  have heq := get_miss_eq hash hL hkB
  have hA : getAfter hash m k =
      { m with
        table := m.table.set (hash k % m.table.length)
          (LinkedList.mk (bucketAt m.table (hash k % m.table.length)).head.reverse
            (bucketAt m.table (hash k % m.table.length)).head.length) } := by
    rw [getAfter, heq]
  have hperm := (get_miss_spec hash hL hkB).2.2.2.2.2.2.2
  refine ⟨?_, ?_, ?_, ?_, ?_⟩
  · rw [hperm.length_eq, hA]
    exact hsz
  · exact ((hperm.map Prod.fst).nodup_iff).mpr hnd
  · rw [hA]
    exact consistentTable_set hcons (by simp)
  · rw [hA]
    refine placedTable_set hplc hidx ?_
    intro e he
    rw [List.mem_reverse] at he
    exact (placedTable_iff.mp hplc) _ hidx e he
  · rcases hcfg with ⟨h0, _⟩ | ⟨_, hcap, hthr, hle⟩
    · omega
    · right
      rw [hA]
      refine ⟨by simpa using hL, by simpa using hcap, by simpa using hthr, hle⟩

/-- A hit `get` on a map satisfying the invariant: the stored value comes
back, `size` drops by exactly one, exactly the probed entry disappears, and
the invariant is preserved. -/
theorem get_hit_spec {hash : K → Nat} {m : HashMap K V} {k : K} {w : V}
    (hInv : Inv hash m) (hm : (k, w) ∈ m.entries) :
    getResult hash m k = some w ∧
      m.size = (getAfter hash m k).size + 1 ∧
      (getAfter hash m k).capacity = m.capacity ∧
      (getAfter hash m k).threshold = m.threshold ∧
      (getAfter hash m k).table.length = m.table.length ∧
      (getAfter hash m k).entries.Perm (eraseKey k m.entries) ∧
      k ∉ keysOf (getAfter hash m k).entries ∧
      Inv hash (getAfter hash m k) := by
  obtain ⟨hsz, hnd, hcons, hplc, hcfg⟩ := hInv
  have hL : 0 < m.table.length := table_length_pos_of_mem hm
  have hidx : hash k % m.table.length < m.table.length := Nat.mod_lt _ hL
  have hmB : (k, w) ∈ (bucketAt m.table (hash k % m.table.length)).head := by
    have := mem_bucket_of_mem_tableEntries hash hplc
      (by rwa [entries_eq_tableEntries] at hm)
    exact this
  have hndB : (keysOf (bucketAt m.table (hash k % m.table.length)).head).Nodup :=
    bucket_keys_nodup (by rwa [entries_eq_tableEntries] at hnd) hidx
  have heq := get_hit_eq hash hL hndB hmB
  have hA : getAfter hash m k =
      { m with
        size := m.size - 1,
        table := m.table.set (hash k % m.table.length)
          (LinkedList.mk
            (eraseKey k (bucketAt m.table (hash k % m.table.length)).head).reverse
            ((bucketAt m.table (hash k % m.table.length)).head.length - 1)) } := by
    rw [getAfter, heq]
  have hR : getResult hash m k = some w := by rw [getResult, heq]
  have hszpos : 0 < m.size := by
    rw [hsz]
    exact List.length_pos.mpr (List.ne_nil_of_mem hm)
  have hBlen := length_eraseKey hndB hmB
  have hElen : (eraseKey k m.entries).length + 1 = m.entries.length :=
    length_eraseKey hnd hm
  have hperm : (getAfter hash m k).entries.Perm (eraseKey k m.entries) := by
    rw [hA, entries_eq_tableEntries, entries_eq_tableEntries]
    show tableEntries (m.table.set (hash k % m.table.length) _) |>.Perm _
    rw [tableEntries_set hidx]
    conv_rhs => rw [tableEntries_decomp hidx]
    rw [eraseKey_append, eraseKey_append,
      (eraseKey_flanks hash hplc).1,
      (eraseKey_flanks hash hplc).2]
    exact (List.Perm.append_right _
      ((List.Perm.refl _).append (List.reverse_perm _)))
  have hkeys : k ∉ keysOf (getAfter hash m k).entries := by
    intro hc
    have := (hperm.map Prod.fst).mem_iff.mp hc
    exact not_mem_keysOf_eraseKey k m.entries this
  refine ⟨hR, by rw [hA]; simp; omega, by rw [hA], by rw [hA],
    by rw [hA]; simp, hperm, hkeys, ?_, ?_, ?_, ?_, ?_⟩
  · rw [hperm.length_eq, hA]
    simp only []
    omega
  · exact ((hperm.map Prod.fst).nodup_iff).mpr
      (((eraseKey_sublist k m.entries).map Prod.fst).nodup hnd)
  · rw [hA]
    refine consistentTable_set hcons ?_
    simp only [List.length_reverse]
    omega
  · rw [hA]
    refine placedTable_set hplc hidx ?_
    intro e he
    rw [List.mem_reverse, mem_eraseKey] at he
    exact (placedTable_iff.mp hplc) _ hidx e he.1
  · rcases hcfg with ⟨h0, _⟩ | ⟨_, hcap, hthr, hle⟩
    · omega
    · right
      rw [hA]
      refine ⟨by simpa using hL, by simpa using hcap, by simpa using hthr, ?_⟩
      simp only []
      omega

end HashMap

end GetSpec

/-! ### The insert path: `putCore` -/

section PutCore

set_option linter.unusedSectionVars false

variable {K V : Type} [DecidableEq K]

namespace HashMap

theorem putCore_eq_of_lt {hash : K → Nat} {m : HashMap K V} {k : K} {v : V}
    (hL : 0 < m.table.length) :
    putCore hash m k v =
      (match replaceValue k v (bucketAt m.table (hash k % m.table.length)).head with
       | some (ov, chain) =>
         some (some ov,
           { m with
             table := m.table.set (hash k % m.table.length)
               (LinkedList.mk chain (bucketAt m.table (hash k % m.table.length)).size) })
       | none =>
         some (none,
           { m with
             table := m.table.set (hash k % m.table.length)
               ((bucketAt m.table (hash k % m.table.length)).push (k, v)),
             size := m.size + 1 })) := by
  rw [putCore, index_for, if_neg (by omega)]
  rfl

/-- `putCore` when the key is already present (under the structural parts of
the invariant): the old value is displaced in place; `size`, the key
multiset and all bookkeeping fields are unchanged. -/
theorem putCore_found_spec {hash : K → Nat} {m : HashMap K V} {k : K} {w : V}
    (hsz : m.size = m.entries.length)
    (hnd : (keysOf m.entries).Nodup)
    (hcons : consistentTable m.table)
    (hplc : placedTable hash m.table)
    (hm : (k, w) ∈ m.entries) (v : V) :
    ∃ m', putCore hash m k v = some (some w, m') ∧
      m'.size = m.size ∧ m'.capacity = m.capacity ∧ m'.threshold = m.threshold ∧
      m'.table.length = m.table.length ∧
      m'.entries.Perm ((k, v) :: eraseKey k m.entries) ∧
      keysOf m'.entries = keysOf m.entries ∧
      m'.size = m'.entries.length ∧
      consistentTable m'.table ∧ placedTable hash m'.table := by
  have hL : 0 < m.table.length := table_length_pos_of_mem hm
  have hidx : hash k % m.table.length < m.table.length := Nat.mod_lt _ hL
  have hmB : (k, w) ∈ (bucketAt m.table (hash k % m.table.length)).head :=
    mem_bucket_of_mem_tableEntries hash hplc hm
  have hndB : (keysOf (bucketAt m.table (hash k % m.table.length)).head).Nodup :=
    bucket_keys_nodup hnd hidx
  rcases replaceValue_some_spec hndB hmB v with ⟨chain, hrv, hkeys, hlen, hperm⟩
  have hElen : (eraseKey k m.entries).length + 1 = m.entries.length :=
    length_eraseKey hnd hm
  have hflk := eraseKey_flanks hash (t := m.table) hplc (k := k)
  refine ⟨{ m with
      table := m.table.set (hash k % m.table.length)
        (LinkedList.mk chain (bucketAt m.table (hash k % m.table.length)).size) },
    by simp only [putCore_eq_of_lt hL, hrv], rfl, rfl, rfl, by simp, ?_, ?_, ?_, ?_, ?_⟩
  · show tableEntries (m.table.set _ _) |>.Perm _
    conv_rhs =>
      rw [show (eraseKey k m.entries : List (K × V)) =
        eraseKey k (tableEntries m.table) from rfl, tableEntries_decomp hidx,
        eraseKey_append, eraseKey_append, hflk.1, hflk.2, List.append_assoc]
    rw [tableEntries_set hidx, List.append_assoc]
    exact ((List.Perm.append_left _ (hperm.append_right _)).trans List.perm_middle)
  · show keysOf (tableEntries (m.table.set _ _)) = keysOf (tableEntries m.table)
    rw [tableEntries_set hidx]
    conv_rhs => rw [tableEntries_decomp hidx]
    rw [keysOf_append, keysOf_append, keysOf_append, keysOf_append]
    show _ ++ keysOf chain ++ _ = _
    rw [hkeys]
  · show m.size = (tableEntries (m.table.set _ _)).length
    rw [tableEntries_set hidx]
    have hdec : m.entries.length =
        (tableEntries (m.table.take (hash k % m.table.length))
          ++ (bucketAt m.table (hash k % m.table.length)).head
          ++ tableEntries (m.table.drop (hash k % m.table.length + 1))).length := by
      rw [entries_eq_tableEntries]
      rw [← tableEntries_decomp hidx]
    have hchain : (LinkedList.mk chain
        (bucketAt m.table (hash k % m.table.length)).size).head.length
        = (bucketAt m.table (hash k % m.table.length)).head.length := hlen
    simp only [List.length_append] at hdec ⊢
    omega
  · refine consistentTable_set hcons ?_
    show (bucketAt m.table (hash k % m.table.length)).size = chain.length
    rw [hlen]
    exact hcons _ (by rw [bucketAt_lt hidx]; exact m.table.getElem_mem hidx)
  · refine placedTable_set hplc hidx ?_
    intro e he
    have : e.1 ∈ keysOf (bucketAt m.table (hash k % m.table.length)).head := by
      rw [← hkeys]
      exact mem_keysOf_of_mem he
    rcases List.mem_map.mp this with ⟨e0, he0, hke⟩
    have := (placedTable_iff.mp hplc) _ hidx e0 he0
    rw [hke] at this
    exact this

/-- `putCore` when the key is absent from the whole (placed) table: a new
entry is pushed at the front of its hash bucket and `size` grows by one. -/
theorem putCore_fresh_spec {hash : K → Nat} {m : HashMap K V} {k : K}
    (hnd : (keysOf m.entries).Nodup)
    (hcons : consistentTable m.table)
    (hplc : placedTable hash m.table)
    (hL : 0 < m.table.length)
    (hk : k ∉ keysOf m.entries) (v : V) :
    ∃ m', putCore hash m k v = some (none, m') ∧
      m'.size = m.size + 1 ∧ m'.capacity = m.capacity ∧ m'.threshold = m.threshold ∧
      m'.table.length = m.table.length ∧
      m'.entries.Perm ((k, v) :: m.entries) ∧
      (keysOf m'.entries).Nodup ∧
      m'.entries.length = m.entries.length + 1 ∧
      consistentTable m'.table ∧ placedTable hash m'.table ∧
      bucketAt m'.table (hash k % m.table.length) =
        (bucketAt m.table (hash k % m.table.length)).push (k, v) := by
  have hidx : hash k % m.table.length < m.table.length := Nat.mod_lt _ hL
  have hkB : k ∉ keysOf (bucketAt m.table (hash k % m.table.length)).head := by
    intro hc
    rcases List.mem_map.mp hc with ⟨e, he, hke⟩
    exact hk (hke ▸ mem_keysOf_of_mem (mem_bucket_mem_tableEntries hidx he))
  have hrv : replaceValue k v (bucketAt m.table (hash k % m.table.length)).head = none :=
    replaceValue_of_not_mem v hkB
  have hperm : tableEntries (m.table.set (hash k % m.table.length)
      ((bucketAt m.table (hash k % m.table.length)).push (k, v))) |>.Perm
      ((k, v) :: tableEntries m.table) := by
    conv_rhs => rw [tableEntries_decomp hidx, List.append_assoc]
    rw [tableEntries_set hidx, List.append_assoc]
    exact List.perm_middle
  refine ⟨{ m with
      table := m.table.set (hash k % m.table.length)
        ((bucketAt m.table (hash k % m.table.length)).push (k, v)),
      size := m.size + 1 },
    by simp only [putCore_eq_of_lt hL, hrv], rfl, rfl, rfl, by simp, hperm,
    ?_, ?_, ?_, ?_, ?_⟩
  · refine ((hperm.map Prod.fst).nodup_iff).mpr ?_
    exact List.nodup_cons.mpr ⟨hk, hnd⟩
  · show (tableEntries (m.table.set _ _)).length = (tableEntries m.table).length + 1
    rw [hperm.length_eq]
    simp
  · refine consistentTable_set hcons ?_
    show (bucketAt m.table (hash k % m.table.length)).size + 1 =
      (bucketAt m.table (hash k % m.table.length)).head.length + 1
    have hb : bucketAt m.table (hash k % m.table.length) ∈ m.table := by
      rw [bucketAt_lt hidx]
      exact m.table.getElem_mem hidx
    have := hcons _ hb
    omega
  · refine placedTable_set hplc hidx ?_
    intro e he
    rcases List.mem_cons.mp he with rfl | he'
    · rfl
    · exact (placedTable_iff.mp hplc) _ hidx e he'
  · exact bucketAt_set_self hidx _

end HashMap

end PutCore

/-! ### `resize`: reinsertion of every entry through `put` -/

section ResizeSpec

set_option linter.unusedSectionVars false

variable {K V : Type} [DecidableEq K]

namespace HashMap

theorem put_succ_eq (hash : K → Nat) (fuel : Nat) (m : HashMap K V) (k : K) (v : V) :
    put hash (fuel + 1) m k v = putAux hash (resizeAux (put hash fuel)) m k v := rfl

theorem put_no_resize {hash : K → Nat} {m : HashMap K V} (fuel : Nat) {k : K} {v : V}
    (hcond : ¬(m.table.length = 0 ∨ m.threshold ≤ m.size)) :
    put hash (fuel + 1) m k v = putCore hash m k v := by
  rw [put_succ_eq, putAux, if_neg hcond]

/-- The reinsertion loop of `resize`, from a state whose `size` is strictly
below the threshold (so no nested resize fires): every entry with a key new
to the table is pushed through `put` and the paired `size -= 1` restores the
running count, leaving `size` and all bookkeeping unchanged and the entry
multiset extended by the reinserted entries. -/
theorem reinsertList_spec (hash : K → Nat) (fuel : Nat) (es : List (K × V)) :
    ∀ st : HashMap K V,
    0 < st.table.length →
    st.size < st.threshold →
    (keysOf st.entries).Nodup →
    consistentTable st.table →
    placedTable hash st.table →
    (keysOf es).Nodup →
    (∀ k0 ∈ keysOf es, k0 ∉ keysOf st.entries) →
    ∃ st', reinsertList (put hash (fuel + 1)) es st = some st' ∧
      st'.size = st.size ∧ st'.capacity = st.capacity ∧
      st'.threshold = st.threshold ∧
      st'.table.length = st.table.length ∧
      st'.entries.Perm (es ++ st.entries) ∧
      (keysOf st'.entries).Nodup ∧
      consistentTable st'.table ∧ placedTable hash st'.table := by
  induction es with
  | nil =>
    intro st hL hlt hnd hcons hplc _ _
    exact ⟨st, rfl, rfl, rfl, rfl, rfl, List.Perm.refl _, hnd, hcons, hplc⟩
  | cons e rest ih =>
    intro st hL hlt hnd hcons hplc hndes hfresh
    obtain ⟨k, v⟩ := e
    have hkfresh : k ∉ keysOf st.entries := hfresh k (by simp)
    rcases putCore_fresh_spec hnd hcons hplc hL hkfresh v with
      ⟨st1, hpc, hsz1, hcap1, hthr1, hlen1, hperm1, hnd1, _, hcons1, hplc1, _⟩
    have hput : put hash (fuel + 1) st k v = some (none, st1) := by
      rw [put_no_resize fuel (by omega), hpc]
    rw [reinsertList, hput]
    have hst2entries : ({ st1 with size := st1.size - 1 } : HashMap K V).entries
        = st1.entries := rfl
    have hkeysperm : keysOf st1.entries |>.Perm (k :: keysOf st.entries) :=
      hperm1.map Prod.fst
    have hndrest : (keysOf rest).Nodup := by
      rw [keysOf_cons] at hndes
      exact (List.nodup_cons.mp hndes).2
    have hknotrest : k ∉ keysOf rest := by
      rw [keysOf_cons] at hndes
      exact (List.nodup_cons.mp hndes).1
    have hsz2 : ({ st1 with size := st1.size - 1 } : HashMap K V).size = st.size := by
      show st1.size - 1 = st.size
      omega
    rcases ih { st1 with size := st1.size - 1 }
        (by show 0 < st1.table.length; omega)
        (by show st1.size - 1 < st1.threshold; omega)
        (by rw [hst2entries]; exact hnd1)
        hcons1 hplc1 hndrest
        (by
          intro k0 hk0
          rw [hst2entries]
          intro hc
          have := hkeysperm.mem_iff.mp hc
          rcases List.mem_cons.mp this with rfl | hc'
          · exact hknotrest hk0
          · exact hfresh k0 (List.mem_cons_of_mem _ hk0) hc')
        with ⟨st', hrun, hsz', hcap', hthr', hlen', hperm', hnd', hcons', hplc'⟩
    refine ⟨st', hrun, by rw [hsz', hsz2],
      by rw [hcap']; exact hcap1,
      by rw [hthr']; exact hthr1,
      by rw [hlen']; exact hlen1, ?_, hnd', hcons', hplc'⟩
    refine hperm'.trans ?_
    rw [hst2entries]
    exact (List.Perm.append_left _ hperm1).trans List.perm_middle

theorem resize_zero (hash : K → Nat) {m : HashMap K V} (fuel : Nat)
    (h0 : m.table.length = 0) :
    resize hash fuel m =
      some { m with table := List.replicate DEFAULT_CAPACITY LinkedList.new } := by
  rw [resize, resizeAux, h0]

/-- `resize` on an allocated table of a map satisfying the invariant:
the bucket count and `capacity` double, `threshold` is recomputed, and both
`size` and the entry multiset are preserved, as is the invariant. -/
theorem resize_spec {hash : K → Nat} {m : HashMap K V} (fuel : Nat)
    (hInv : Inv hash m) (hL : 0 < m.table.length) :
    ∃ m', resize hash (fuel + 1) m = some m' ∧
      m'.size = m.size ∧
      m'.capacity = m.capacity * 2 ∧
      m'.threshold = thresholdOf (m.table.length * 2) ∧
      m'.table.length = m.table.length * 2 ∧
      m'.entries.Perm m.entries ∧
      Inv hash m' := by
  obtain ⟨hsz, hnd, hcons, hplc, hcfg⟩ := hInv
  rcases hcfg with ⟨h0, _⟩ | ⟨hpos, hcap, hthr, hle⟩
  · omega
  obtain ⟨n, hn⟩ : ∃ n, m.table.length = n + 1 := ⟨m.table.length - 1, by omega⟩
  have hresize : resize hash (fuel + 1) m =
      reinsertList (put hash (fuel + 1)) m.entries
        { m with threshold := thresholdOf ((n + 1) * 2),
                 capacity := m.capacity * 2,
                 table := List.replicate ((n + 1) * 2) LinkedList.new } := by
    rw [resize, resizeAux, hn]
  set m1 : HashMap K V :=
    { m with threshold := thresholdOf ((n + 1) * 2),
             capacity := m.capacity * 2,
             table := List.replicate ((n + 1) * 2) LinkedList.new } with hm1
  have hm1entries : m1.entries = [] := by
    rw [hm1, entries_eq_tableEntries]
    exact tableEntries_replicate _
  have hm1len : m1.table.length = (n + 1) * 2 := by
    rw [hm1]
    simp
  have hthrlt : thresholdOf (m.table.length) < thresholdOf ((n + 1) * 2) := by
    rw [hn, thresholdOf, thresholdOf]
    omega
  rcases reinsertList_spec hash fuel m.entries m1
      (by omega)
      (by
        show m.size < thresholdOf ((n + 1) * 2)
        omega)
      (by rw [hm1entries]; exact List.nodup_nil)
      (by
        intro b hb
        rw [hm1] at hb
        simp only [List.eq_of_mem_replicate hb, LinkedList.new]
        rfl)
      (by
        rw [placedTable_iff]
        intro i hi e he
        rw [hm1len] at hi
        have : bucketAt m1.table i = LinkedList.new := by
          rw [hm1, bucketAt]
          rw [List.getD_eq_getElem?_getD]
          rw [List.getElem?_replicate]
          simp [hi]
        rw [this] at he
        cases he)
      hnd
      (by
        intro k0 _
        rw [hm1entries]
        simp [keysOf])
      with ⟨m', hrun, hsz', hcap', hthr', hlen', hperm', hnd', hcons', hplc'⟩
  have hm'entries : m'.entries.Perm m.entries := by
    have := hperm'
    rw [hm1entries, List.append_nil] at this
    exact this
  have hsz'' : m'.size = m.size := hsz'
  have hcap'' : m'.capacity = m.capacity * 2 := hcap'
  have hthr'' : m'.threshold = thresholdOf ((n + 1) * 2) := hthr'
  have hlen'' : m'.table.length = (n + 1) * 2 := by rw [hlen', hm1len]
  refine ⟨m', by rw [hresize]; exact hrun, hsz'', hcap'', by rw [hthr'', hn], by omega,
    hm'entries, ?_, ?_, hcons', hplc', ?_⟩
  · rw [hsz'', hm'entries.length_eq, hsz]
  · exact hnd'
  · right
    refine ⟨by omega, by omega, ?_, ?_⟩
    · rw [hthr'', hlen'']
    · rw [hthr'', hsz'']
      omega

end HashMap

end ResizeSpec

/-! ### The full `put` at fuel 2 -/

section PutSpec

set_option linter.unusedSectionVars false

variable {K V : Type} [DecidableEq K]

namespace HashMap

theorem thresholdOf_succ_le {L : Nat} (h : 0 < L) :
    thresholdOf L + 1 ≤ thresholdOf (L * 2) := by
  rw [thresholdOf, thresholdOf]
  omega

theorem replicate_consistent {n : Nat} :
    consistentTable (List.replicate n (LinkedList.new : LinkedList (K × V))) := by
  intro b hb
  rw [List.eq_of_mem_replicate hb]
  rfl

theorem replicate_placed {hash : K → Nat} {n : Nat} :
    placedTable hash (List.replicate n (LinkedList.new : LinkedList (K × V))) := by
  rw [placedTable_iff]
  intro i hi e he
  rw [List.length_replicate] at hi
  have : bucketAt (List.replicate n (LinkedList.new : LinkedList (K × V))) i
      = LinkedList.new := by
    rw [bucketAt, List.getD_eq_getElem?_getD, List.getElem?_replicate]
    simp [hi]
  rw [this] at he
  cases he

/-- Full characterisation of `put` with fuel 2 from any state satisfying the
invariant: it succeeds, preserves the invariant, grows the table exactly as
the resize policy dictates, and either pushes a fresh entry at the front of
its (post-resize) hash bucket or displaces the present entry's value in
place. -/
theorem put_spec {hash : K → Nat} {m : HashMap K V} (hInv : Inv hash m)
    (k : K) (v : V) :
    ∃ r m', put hash 2 m k v = some (r, m') ∧
      Inv hash m' ∧
      m'.table.length = (if m.table.length = 0 then DEFAULT_CAPACITY
        else if m.threshold ≤ m.size then m.table.length * 2
        else m.table.length) ∧
      m'.capacity = (if m.table.length ≠ 0 ∧ m.threshold ≤ m.size
        then m.capacity * 2 else m.capacity) ∧
      (k ∉ keysOf m.entries →
        r = none ∧ m'.size = m.size + 1 ∧
        m'.entries.Perm ((k, v) :: m.entries) ∧
        (bucketAt m'.table (hash k % m'.table.length)).peek = some (k, v)) ∧
      (∀ w, (k, w) ∈ m.entries →
        r = some w ∧ m'.size = m.size ∧
        m'.entries.Perm ((k, v) :: eraseKey k m.entries)) := by
  obtain ⟨hsz, hnd, hcons, hplc, hcfg⟩ := hInv
  have hput2 : put hash 2 m k v = putAux hash (resizeAux (put hash 1)) m k v := rfl
  by_cases hcond : m.table.length = 0 ∨ m.threshold ≤ m.size
  · rcases Nat.eq_zero_or_pos m.table.length with h0 | hL
    · -- first allocation
      have hfirst : m.size = 0 ∧ m.capacity = 8 ∧ m.threshold = 6 := by
        rcases hcfg with ⟨_, h⟩ | ⟨hpos, _⟩
        · exact h
        · omega
      have htbl : m.table = [] := List.length_eq_zero.mp h0
      have hentries : m.entries = [] := by
        rw [entries_eq_tableEntries, htbl]
        rfl
      have hres : resizeAux (put hash 1) m =
          some { m with table := List.replicate DEFAULT_CAPACITY LinkedList.new } :=
        resize_zero hash 1 h0
      set mr : HashMap K V :=
        { m with table := List.replicate DEFAULT_CAPACITY LinkedList.new } with hmr
      have hmrlen : mr.table.length = 8 := by
        rw [hmr]
        simp [DEFAULT_CAPACITY]
      have hmrentries : mr.entries = [] := by
        rw [hmr, entries_eq_tableEntries]
        exact tableEntries_replicate _
      have hmrnd : (keysOf mr.entries).Nodup := by
        rw [hmrentries]
        exact List.nodup_nil
      have hkf : k ∉ keysOf mr.entries := by
        rw [hmrentries]
        simp [keysOf]
      rcases putCore_fresh_spec hmrnd replicate_consistent replicate_placed
          (by omega) hkf v with
        ⟨m', hpc, hsz', hcap', hthr', hlen', hperm', hnd', hlenE', hcons', hplc', hbkt⟩
      have hmrsize : mr.size = m.size := rfl
      have hmrcap : mr.capacity = m.capacity := rfl
      have hmrthr : mr.threshold = m.threshold := rfl
      refine ⟨none, m', ?_, ?_, ?_, ?_, ?_, ?_⟩
      · rw [hput2, putAux, if_pos hcond]
        simp only [hres]
        exact hpc
      · have hz : mr.entries = ([] : List (K × V)) := hmrentries
        refine ⟨?_, hnd', hcons', hplc', Or.inr ⟨?_, ?_, ?_, ?_⟩⟩
        · rw [hsz', hlenE', hmrsize, hfirst.1, hz]
          rfl
        · omega
        · rw [hcap', hlen', hmrcap, hmrlen, hfirst.2.1]
        · rw [hthr', hlen', hmrthr, hmrlen, hfirst.2.2]
          rfl
        · rw [hsz', hthr', hmrsize, hmrthr, hfirst.1, hfirst.2.2]
          omega
      · rw [if_pos h0, hlen', hmrlen]
        rfl
      · rw [if_neg (by omega), hcap', hmrcap]
      · intro _
        refine ⟨rfl, by omega, ?_, ?_⟩
        · rw [hentries]
          have hz : mr.entries = ([] : List (K × V)) := hmrentries
          rw [hz] at hperm'
          exact hperm'
        · rw [show hash k % m'.table.length = hash k % mr.table.length by rw [hlen']]
          rw [hbkt]
          rfl
      · intro w hw
        rw [hentries] at hw
        cases hw
    · -- the load factor fired: a genuine doubling resize
      have hthrle : m.threshold ≤ m.size := by
        rcases hcond with h0' | h
        · omega
        · exact h
      have hInvm : Inv hash m := ⟨hsz, hnd, hcons, hplc, hcfg⟩
      rcases resize_spec 0 hInvm hL with
        ⟨mr, hres, hszr, hcapr, hthrr, hlenr, hpermr, hInvr⟩
      obtain ⟨hszR, hndR, hconsR, hplcR, hcfgR⟩ := hInvr
      have hcfgm : m.capacity = m.table.length ∧
          m.threshold = thresholdOf m.table.length ∧ m.size ≤ m.threshold := by
        rcases hcfg with ⟨h0', _⟩ | ⟨_, h1, h2, h3⟩
        · omega
        · exact ⟨h1, h2, h3⟩
      have hreseq : resizeAux (put hash 1) m = some mr := hres
      by_cases hmem : k ∈ keysOf m.entries
      · rcases List.mem_map.mp hmem with ⟨e, he, hke⟩
        obtain ⟨k', w⟩ := e
        have hk' : k' = k := hke
        subst hk'
        have heR : (k', w) ∈ mr.entries := hpermr.mem_iff.mpr he
        rcases putCore_found_spec hszR hndR hconsR hplcR heR v with
          ⟨m', hpc, hsz', hcap', hthr', hlen', hperm', hkeys', hszE', hcons', hplc'⟩
        refine ⟨some w, m', ?_, ?_, ?_, ?_, ?_, ?_⟩
        · rw [hput2, putAux, if_pos hcond]
          simp only [hreseq]
          exact hpc
        · refine ⟨hszE', ?_, hcons', hplc',
            Or.inr ⟨by omega, ?_, ?_, ?_⟩⟩
          · have : (keysOf m'.entries).Nodup := by
              rw [hkeys']
              exact hndR
            exact this
          · rw [hcap', hlen', hcapr, hcfgm.1, hlenr]
          · rw [hthr', hlen', hthrr, hlenr]
          · rw [hsz', hthr', hszr, hthrr]
            have h1 : m.size ≤ thresholdOf m.table.length := by
              rw [← hcfgm.2.1]
              exact hcfgm.2.2
            have h2 := thresholdOf_succ_le hL
            omega
        · rw [if_neg (by omega), if_pos hthrle, hlen', hlenr]
        · rw [if_pos ⟨by omega, hthrle⟩, hcap', hcapr]
        · intro hk
          exact absurd hmem hk
        · intro w' hw'
          have hww : w' = w := value_unique hnd hw' he
          subst hww
          refine ⟨rfl, by rw [hsz', hszr], ?_⟩
          refine hperm'.trans (List.Perm.cons _ ?_)
          exact hpermr.filter _
      · have hkR : k ∉ keysOf mr.entries := fun hc =>
          hmem ((hpermr.map Prod.fst).mem_iff.mp hc)
        rcases putCore_fresh_spec hndR hconsR hplcR (by omega) hkR v with
          ⟨m', hpc, hsz', hcap', hthr', hlen', hperm', hnd', hlenE', hcons', hplc', hbkt⟩
        refine ⟨none, m', ?_, ?_, ?_, ?_, ?_, ?_⟩
        · rw [hput2, putAux, if_pos hcond]
          simp only [hreseq]
          exact hpc
        · refine ⟨?_, hnd', hcons', hplc', Or.inr ⟨by omega, ?_, ?_, ?_⟩⟩
          · rw [hsz', hlenE', hszR]
          · rw [hcap', hlen', hcapr, hcfgm.1, hlenr]
          · rw [hthr', hlen', hthrr, hlenr]
          · rw [hsz', hthr', hszr, hthrr]
            have h1 : m.size ≤ thresholdOf m.table.length := by
              rw [← hcfgm.2.1]
              exact hcfgm.2.2
            have h2 := thresholdOf_succ_le hL
            omega
        · rw [if_neg (by omega), if_pos hthrle, hlen', hlenr]
        · rw [if_pos ⟨by omega, hthrle⟩, hcap', hcapr]
        · intro _
          refine ⟨rfl, by rw [hsz', hszr], ?_, ?_⟩
          · exact hperm'.trans (List.Perm.cons _ hpermr)
          · rw [show hash k % m'.table.length = hash k % mr.table.length by rw [hlen']]
            rw [hbkt]
            rfl
        · intro w hw
          exact absurd (mem_keysOf_of_mem (e := (k, w)) hw) hmem
  · -- no resize
    have hL : 0 < m.table.length := by
      rcases Nat.eq_zero_or_pos m.table.length with h0 | h
      · exact absurd (Or.inl h0) hcond
      · exact h
    have hlt : m.size < m.threshold := by
      rcases Nat.lt_or_ge m.size m.threshold with h | h
      · exact h
      · exact absurd (Or.inr h) hcond
    have hput : put hash 2 m k v = putCore hash m k v := put_no_resize 1 hcond
    have hcfgm : m.capacity = m.table.length ∧
        m.threshold = thresholdOf m.table.length := by
      rcases hcfg with ⟨h0', _⟩ | ⟨_, h1, h2, _⟩
      · omega
      · exact ⟨h1, h2⟩
    by_cases hmem : k ∈ keysOf m.entries
    · rcases List.mem_map.mp hmem with ⟨e, he, hke⟩
      obtain ⟨k', w⟩ := e
      have hk' : k' = k := hke
      subst hk'
      rcases putCore_found_spec hsz hnd hcons hplc he v with
        ⟨m', hpc, hsz', hcap', hthr', hlen', hperm', hkeys', hszE', hcons', hplc'⟩
      refine ⟨some w, m', by rw [hput]; exact hpc, ?_, ?_, ?_, ?_, ?_⟩
      · refine ⟨hszE', ?_, hcons', hplc', Or.inr ⟨by omega, ?_, ?_, ?_⟩⟩
        · have : (keysOf m'.entries).Nodup := by
            rw [hkeys']
            exact hnd
          exact this
        · rw [hcap', hlen', hcfgm.1]
        · rw [hthr', hlen', hcfgm.2]
        · rw [hsz', hthr']
          omega
      · rw [if_neg (by omega), if_neg (by omega), hlen']
      · rw [if_neg (by omega), hcap']
      · intro hk
        exact absurd hmem hk
      · intro w' hw'
        have hww : w' = w := value_unique hnd hw' he
        subst hww
        exact ⟨rfl, hsz', hperm'⟩
    · rcases putCore_fresh_spec hnd hcons hplc hL hmem v with
        ⟨m', hpc, hsz', hcap', hthr', hlen', hperm', hnd', hlenE', hcons', hplc', hbkt⟩
      refine ⟨none, m', by rw [hput]; exact hpc, ?_, ?_, ?_, ?_, ?_⟩
      · refine ⟨?_, hnd', hcons', hplc', Or.inr ⟨by omega, ?_, ?_, ?_⟩⟩
        · rw [hsz', hlenE', hsz]
        · rw [hcap', hlen', hcfgm.1]
        · rw [hthr', hlen', hcfgm.2]
        · rw [hsz', hthr']
          omega
      · rw [if_neg (by omega), if_neg (by omega), hlen']
      · rw [if_neg (by omega), hcap']
      · intro _
        refine ⟨rfl, hsz', hperm', ?_⟩
        rw [show hash k % m'.table.length = hash k % m.table.length by rw [hlen']]
        rw [hbkt]
        rfl
      · intro w hw
        exact absurd (mem_keysOf_of_mem (e := (k, w)) hw) hmem

end HashMap

end PutSpec

/-! ### Sequences of puts from a fresh map -/

section SeqSpec

set_option linter.unusedSectionVars false

variable {K V : Type} [DecidableEq K]

namespace HashMap

/-- A freshly constructed map satisfies the representation invariant. -/
theorem Inv_new (hash : K → Nat) : Inv hash (HashMap.new : HashMap K V) := by
  refine ⟨rfl, List.nodup_nil, ?_, ?_, Or.inl ⟨rfl, rfl, rfl, rfl⟩⟩
  · intro b hb
    cases hb
  · rw [placedTable_iff]
    intro i hi e he
    simp [HashMap.new] at hi

theorem putSeq_inv {hash : K → Nat} (ps : List (K × V)) :
    ∀ m : HashMap K V, Inv hash m →
    ∃ m', putSeq hash ps m = some m' ∧ Inv hash m' := by
  induction ps with
  | nil =>
    intro m hInv
    exact ⟨m, rfl, hInv⟩
  | cons e rest ih =>
    intro m hInv
    obtain ⟨k, v⟩ := e
    rcases put_spec hInv k v with ⟨r, m1, hput, hInv1, _⟩
    rcases ih m1 hInv1 with ⟨m', hrun, hInv'⟩
    exact ⟨m', by rw [putSeq, hput]; exact hrun, hInv'⟩

/-- Inserting a list of pairwise-distinct fresh keys: the count grows by one
per insertion and the bucket count follows the `lenAfter` growth schedule of
the resize policy. -/
theorem putSeq_fresh_spec {hash : K → Nat} (ps : List (K × V)) :
    ∀ m : HashMap K V, Inv hash m →
    (keysOf ps).Nodup →
    (∀ k0 ∈ keysOf ps, k0 ∉ keysOf m.entries) →
    m.table.length = lenAfter m.size →
    ∃ m', putSeq hash ps m = some m' ∧ Inv hash m' ∧
      m'.size = m.size + ps.length ∧
      m'.table.length = lenAfter m'.size ∧
      m'.entries.Perm (ps ++ m.entries) := by
  induction ps with
  | nil =>
    intro m hInv _ _ hlen
    exact ⟨m, rfl, hInv, by simp, by simpa using hlen, by simp⟩
  | cons e rest ih =>
    intro m hInv hnd hfresh hlen
    obtain ⟨k, v⟩ := e
    have hkf : k ∉ keysOf m.entries := hfresh k (by simp)
    rcases put_spec hInv k v with ⟨r, m1, hput, hInv1, hlen1, _, hfr, _⟩
    rcases hfr hkf with ⟨hr, hsz1, hperm1, _⟩
    have hthr : m.table.length ≠ 0 → m.threshold = thresholdOf m.table.length := by
      intro hne
      rcases hInv.2.2.2.2 with ⟨h0, _⟩ | ⟨_, _, h2, _⟩
      · omega
      · exact h2
    have hlen1' : m1.table.length = lenAfter m1.size := by
      rw [hsz1, hlen1]
      rw [show lenAfter (m.size + 1) =
        (if lenAfter m.size = 0 then 8
         else if thresholdOf (lenAfter m.size) ≤ m.size then lenAfter m.size * 2
         else lenAfter m.size) from rfl, ← hlen]
      by_cases h0 : m.table.length = 0
      · rw [if_pos h0, if_pos h0]
        rfl
      · rw [if_neg h0, if_neg h0, ← hthr h0]
    have hndrest : (keysOf rest).Nodup := by
      rw [keysOf_cons] at hnd
      exact (List.nodup_cons.mp hnd).2
    have hknotrest : k ∉ keysOf rest := by
      rw [keysOf_cons] at hnd
      exact (List.nodup_cons.mp hnd).1
    have hkeys1 : keysOf m1.entries |>.Perm (k :: keysOf m.entries) :=
      hperm1.map Prod.fst
    rcases ih m1 hInv1 hndrest
        (by
          intro k0 hk0 hc
          rcases List.mem_cons.mp (hkeys1.mem_iff.mp hc) with rfl | hc'
          · exact hknotrest hk0
          · exact hfresh k0 (List.mem_cons_of_mem _ hk0) hc')
        hlen1' with ⟨m', hrun, hInv', hsz', hlen', hperm'⟩
    refine ⟨m', (by rw [putSeq, hput]; exact hrun), hInv',
      (by simp only [hsz', hsz1, List.length_cons]; omega), hlen', ?_⟩
    refine hperm'.trans ?_
    exact (List.Perm.append_left _ hperm1).trans List.perm_middle

end HashMap

end SeqSpec

/-! ### The borrowing iterator: full traversal -/

section IterLemmas

variable {K V : Type}

namespace HashMap

/-- `scanBuckets` either skips a prefix of stored-size-zero buckets and
stops at the first bucket reporting a non-zero size, or reaches the end of
the table with every bucket reporting size zero. -/
theorem scanBuckets_spec (t : List (LinkedList (K × V))) :
    (∃ pre b rest, t = pre ++ b :: rest ∧ (∀ x ∈ pre, x.size = 0) ∧
        b.size ≠ 0 ∧ scanBuckets t = (some b.head, rest)) ∨
      ((∀ b ∈ t, b.size = 0) ∧ scanBuckets t = (none, [])) := by
  induction t with
  | nil =>
    right
    exact ⟨fun b hb => (List.not_mem_nil b hb).elim, rfl⟩
  | cons b bs ih =>
    by_cases hb : b.size = 0
    · rcases ih with ⟨pre, b0, rest, hsplit, hpre, hb0, hscan⟩ | ⟨hall, hscan⟩
      · left
        refine ⟨b :: pre, b0, rest, by rw [hsplit]; rfl, ?_, hb0, ?_⟩
        · intro x hx
          rcases List.mem_cons.mp hx with rfl | hx'
          · exact hb
          · exact hpre x hx'
        · rw [scanBuckets, if_pos hb, hscan]
      · right
        refine ⟨?_, by rw [scanBuckets, if_pos hb, hscan]⟩
        intro x hx
        rcases List.mem_cons.mp hx with rfl | hx'
        · exact hb
        · exact hall x hx'
    · left
      exact ⟨[], b, bs, rfl, fun x hx => (List.not_mem_nil x hx).elim, hb,
        by rw [scanBuckets, if_neg hb]⟩

theorem tableEntries_eq_nil {t : List (LinkedList (K × V))}
    (hc : consistentTable t) (h : ∀ b ∈ t, b.size = 0) : tableEntries t = [] := by
  induction t with
  | nil => rfl
  | cons b bs ih =>
    rw [tableEntries_cons]
    have hb : b.head = [] := by
      have h1 := hc b (List.mem_cons_self b bs)
      have h2 := h b (List.mem_cons_self b bs)
      rw [h2] at h1
      exact (List.eq_nil_of_length_eq_zero h1.symm)
    rw [hb, List.nil_append]
    exact ih (fun x hx => hc x (List.mem_cons_of_mem _ hx))
      (fun x hx => h x (List.mem_cons_of_mem _ hx))

/-- Draining the iterator with sufficient fuel from a consistent state
yields the remaining chain followed by the entries of the remaining
buckets. -/
theorem drainF_spec (fuel : Nat) :
    ∀ (rest : List (LinkedList (K × V))) (c : List (K × V)),
    consistentTable rest →
    (rest.map (fun b => b.head.length)).sum + rest.length + c.length + 1 ≤ fuel →
    drainF fuel ⟨rest, some c⟩ = c ++ tableEntries rest := by
  induction fuel with
  | zero =>
    intro rest c _ hf
    omega
  | succ fuel ih =>
    intro rest c hcons hf
    rcases c with _ | ⟨e, c'⟩
    · rcases scanBuckets_spec rest with
        ⟨pre, b, rest', hsplit, hpre, hbsz, hscan⟩ | ⟨hall, hscan⟩
      · have hcons' : consistentTable rest' := by
          intro x hx
          exact hcons x (by rw [hsplit]; exact List.mem_append_right _ (List.mem_cons_of_mem _ hx))
        have hbc : b.size = b.head.length :=
          hcons b (by rw [hsplit]; exact List.mem_append_right _ (List.mem_cons_self _ _))
        have hbne : b.head ≠ [] := by
          intro hc0
          rw [hc0] at hbc
          exact hbsz (by simpa using hbc)
        obtain ⟨e, c'', hbh⟩ := List.exists_cons_of_ne_nil hbne
        have hnext : MapIter.next (⟨rest, some []⟩ : MapIter K V) =
            some (e, ⟨rest', some c''⟩) := by
          rw [MapIter.next, hscan, hbh]
        simp only [drainF, hnext]
        have hpre0 : (pre.map (fun b => b.head.length)).sum = 0 := by
          apply List.sum_eq_zero
          intro x hx
          rcases List.mem_map.mp hx with ⟨y, hy, rfl⟩
          have h1 := hcons y (by rw [hsplit]; exact List.mem_append_left _ hy)
          have h2 := hpre y hy
          rw [h2] at h1
          omega
        have hsum : (rest.map (fun b => b.head.length)).sum =
            b.head.length + (rest'.map (fun b => b.head.length)).sum := by
          rw [hsplit]
          simp [hpre0]
        have hlen : rest.length = pre.length + 1 + rest'.length := by
          rw [hsplit]
          simp
          omega
        rw [ih rest' c'' hcons' (by
          rw [hbh] at hsum
          simp only [List.length_cons] at hsum
          omega)]
        have hpreE : tableEntries pre = [] := tableEntries_eq_nil
          (fun x hx => hcons x (by rw [hsplit]; exact List.mem_append_left _ hx)) hpre
        rw [hsplit, tableEntries_append, tableEntries_cons, hpreE, hbh]
        simp
      · have hnext : MapIter.next (⟨rest, some []⟩ : MapIter K V) = none := by
          rw [MapIter.next, hscan]
        simp only [drainF, hnext]
        rw [tableEntries_eq_nil hcons hall]
        rfl
    · have hnext : MapIter.next (⟨rest, some (e :: c')⟩ : MapIter K V) =
          some (e, ⟨rest, some c'⟩) := rfl
      simp only [drainF, hnext]
      rw [ih rest c' hcons (by
        simp only [List.length_cons] at hf
        omega)]
      rfl

/-- The full traversal of `iter()` on a table with consistent chain counts
yields exactly the stored entries, in bucket-index order and within each
bucket in chain order. -/
theorem traverse_eq_entries {m : HashMap K V} (hcons : consistentTable m.table) :
    traverse m = m.entries := by
  rw [traverse]
  rcases scanBuckets_spec m.table with
    ⟨pre, b, rest', hsplit, hpre, hbsz, hscan⟩ | ⟨hall, hscan⟩
  · have hinit : iterInit m = ⟨rest', some b.head⟩ := by
      rw [iterInit, hscan]
    rw [hinit]
    have hcons' : consistentTable rest' := by
      intro x hx
      exact hcons x (by rw [hsplit]; exact List.mem_append_right _ (List.mem_cons_of_mem _ hx))
    rw [drainF_spec _ rest' b.head hcons' (by rw [iterFuel]; simp)]
    have hpreE : tableEntries pre = [] := tableEntries_eq_nil
      (fun x hx => hcons x (by rw [hsplit]; exact List.mem_append_left _ hx)) hpre
    rw [entries_eq_tableEntries, hsplit, tableEntries_append, tableEntries_cons, hpreE]
    simp
  · have hinit : iterInit m = ⟨[], none⟩ := by
      rw [iterInit, hscan]
    rw [hinit, entries_eq_tableEntries, tableEntries_eq_nil hcons hall]
    rw [show iterFuel (⟨[], none⟩ : MapIter K V) = 1 from rfl]
    rfl

end HashMap

end IterLemmas

/-! ### Chain-count invariant and remaining frame lemmas -/

section ChainLemmas

variable {T : Type}

theorem applyChainOp_consistent {l : LinkedList T} (h : l.size = l.head.length)
    (op : ChainOp T) :
    (applyChainOp l op).size = (applyChainOp l op).head.length := by
  cases op with
  | push el => simpa [applyChainOp, LinkedList.push] using h
  | pop =>
    rw [applyChainOp]
    rcases hh : l.head with _ | ⟨x, xs⟩
    · simp only [LinkedList.pop, hh]
      rw [h, hh]
    · rw [hh] at h
      simp only [LinkedList.pop, hh]
      rw [if_pos (by simp [h])]
      simp [h]

theorem runChainOps_consistent (ops : List (ChainOp T)) :
    ∀ l : LinkedList T, l.size = l.head.length →
    (runChainOps l ops).size = (runChainOps l ops).head.length := by
  induction ops with
  | nil =>
    intro l h
    exact h
  | cons op ops ih =>
    intro l h
    exact ih (applyChainOp l op) (applyChainOp_consistent h op)

end ChainLemmas

section FrameLemmas

set_option linter.unusedSectionVars false

variable {K V : Type} [DecidableEq K]

namespace HashMap

theorem get_unallocated {hash : K → Nat} {m : HashMap K V}
    (h0 : m.table.length = 0) (k : K) : get hash m k = none := by
  rw [get, index_for, if_pos h0]

/-- A `get` never changes the bucket count, `capacity` or `threshold`. -/
theorem getAfter_frame (hash : K → Nat) (m : HashMap K V) (k : K) :
    (getAfter hash m k).capacity = m.capacity ∧
      (getAfter hash m k).threshold = m.threshold ∧
      (getAfter hash m k).table.length = m.table.length := by
  rcases Nat.eq_zero_or_pos m.table.length with h0 | hL
  · rw [getAfter, get_unallocated h0]
    exact ⟨rfl, rfl, rfl⟩
  · rw [getAfter, get_eq_of_lt hL]
    exact ⟨rfl, rfl, by simp⟩

/-- A missed `get` (key absent from the whole map) on an allocated table:
empty result, unchanged `size`, unchanged entry multiset. -/
theorem get_miss_keys (hash : K → Nat) {m : HashMap K V} {k : K}
    (hL : 0 < m.table.length) (hk : k ∉ keysOf m.entries) :
    getResult hash m k = none ∧
      (getAfter hash m k).size = m.size ∧
      (getAfter hash m k).entries.Perm m.entries ∧
      (bucketAt (getAfter hash m k).table (hash k % m.table.length)).head =
        (bucketAt m.table (hash k % m.table.length)).head.reverse ∧
      (∀ j, j ≠ hash k % m.table.length →
        bucketAt (getAfter hash m k).table j = bucketAt m.table j) := by
  have hidx : hash k % m.table.length < m.table.length := Nat.mod_lt _ hL
  have hkB : k ∉ keysOf (bucketAt m.table (hash k % m.table.length)).head := by
    intro hc
    rcases List.mem_map.mp hc with ⟨e, he, hke⟩
    exact hk (hke ▸ mem_keysOf_of_mem (mem_bucket_mem_tableEntries hidx he))
  rcases get_miss_spec hash hL hkB with
    ⟨h1, h2, _, _, _, h6, h7, h8⟩
  exact ⟨h1, h2, h8, by rw [h6], h7⟩

end HashMap

end FrameLemmas

/-! ### The claims -/

section Claims

set_option linter.unusedSectionVars false

open HashMap

/-- C1 (amended): destructive lookup.  For every map satisfying the
representation invariant and every key k stored with value v, `get k`
returns v, removes the entry and decreases `size` by exactly 1; an
immediate second `get k` returns an empty result and leaves `size`
unchanged.  For every key k2 not present, **provided the bucket array is
allocated** (the amendment: on a freshly constructed map `get` computes
`hash % 0` and panics instead of returning an empty result, see the
counterexample), `get k2` returns an empty result and leaves `size`
unchanged. -/
theorem C1_destructive_get {K V : Type} [DecidableEq K] (hash : K → Nat)
    (m : HashMap K V) (k k2 : K) (v : V)
    (hInv : Inv hash m) (hk : (k, v) ∈ m.entries) (hk2 : k2 ∉ keysOf m.entries) :
    getResult hash m k = some v ∧
      m.size = (getAfter hash m k).size + 1 ∧
      (getAfter hash m k).entries.Perm (eraseKey k m.entries) ∧
      k ∉ keysOf (getAfter hash m k).entries ∧
      getResult hash (getAfter hash m k) k = none ∧
      (getAfter hash (getAfter hash m k) k).size = (getAfter hash m k).size ∧
      (0 < m.table.length → getResult hash m k2 = none ∧
        (getAfter hash m k2).size = m.size) := by
  have hL : 0 < m.table.length := table_length_pos_of_mem hk
  rcases get_hit_spec hInv hk with
    ⟨h1, h2, _, _, h5, h6, h7, hInv1⟩
  have hL1 : 0 < (getAfter hash m k).table.length := by omega
  rcases get_miss_keys hash hL1 h7 with ⟨h8, h9, _, _, _⟩
  refine ⟨h1, h2, h6, h7, h8, h9, ?_⟩
  intro _
  rcases get_miss_keys hash hL hk2 with ⟨h10, h11, _, _, _⟩
  exact ⟨h10, h11⟩

/-- C1 counterexample to the claim as stated: on a freshly constructed map
the key 0 is not present, but `get` does not return an empty result with
`size` unchanged — it computes `hash(0) % 0` against the unallocated bucket
array (`index_for`, lib.rs line 119), a Rust panic, modelled as `none`. -/
theorem C1_counterexample :
    HashMap.get (fun n => n) (HashMap.new : HashMap Nat Nat) 0 = none ∧
      0 ∉ keysOf (HashMap.new : HashMap Nat Nat).entries := by
  exact ⟨rfl, by decide⟩

/-- C2 (amended): totality.  `put` is a total function from every state
satisfying the invariant (it resizes-if-empty before computing any index),
and `get` is total whenever the bucket array is allocated; but — the
amendment — `get` does *not* resize-if-empty before indexing, so `get`
called on a freshly constructed map before any `put` computes an index
against the empty bucket array and panics (the only non-value outcomes
besides the documented empty results). -/
theorem C2_totality {K V : Type} [DecidableEq K] (hash : K → Nat)
    (m : HashMap K V) (k k0 : K) (v : V) (hInv : Inv hash m) :
    (put hash 2 m k v).isSome ∧
      (0 < m.table.length → (get hash m k).isSome) ∧
      get hash (HashMap.new : HashMap K V) k0 = none := by
  rcases put_spec hInv k v with ⟨r, m', hput, _⟩
  refine ⟨by rw [hput]; rfl, ?_, ?_⟩
  · intro hL
    rw [get_eq_of_lt hL]
    rfl
  · exact get_unallocated (m := (HashMap.new : HashMap K V)) rfl k0

/-- C2 counterexample to the claim as stated: `get` on a freshly
constructed map computes a bucket index against the empty (not yet
allocated) bucket array — `index_for` takes `hash % 0`, a panic — because
`get`, unlike `put`, has no resize-if-empty guard before indexing. -/
theorem C2_counterexample :
    HashMap.index_for (fun n => n) (HashMap.new : HashMap Nat Nat) 0 = none ∧
      HashMap.get (fun n => n) (HashMap.new : HashMap Nat Nat) 0 = none ∧
      (HashMap.new : HashMap Nat Nat).table.length = 0 :=
  ⟨rfl, rfl, rfl⟩

/-- C3: key uniqueness and overwrite semantics.  Any sequence of `put`
calls from a fresh map succeeds and leaves the keys pairwise distinct.
From any state satisfying the invariant, `put` on a present key displaces
and returns the stored value with `size` unchanged; `put` on a fresh key
returns an empty result and increments `size`; in both cases the entries
afterwards are the old ones with the key now bound to the new value, keys
still pairwise distinct. -/
theorem C3_put_uniqueness {K V : Type} [DecidableEq K] (hash : K → Nat)
    (ps : List (K × V)) (m : HashMap K V) (k : K) (v w : V) (hInv : Inv hash m) :
    (putSeq hash ps (HashMap.new : HashMap K V)).isSome ∧
      (keysOf (putSeqAfter hash ps).entries).Nodup ∧
      ((k, w) ∈ m.entries →
        putPrev hash m k v = some w ∧
        (putAfter hash m k v).size = m.size ∧
        (putAfter hash m k v).entries.Perm ((k, v) :: eraseKey k m.entries) ∧
        (keysOf (putAfter hash m k v).entries).Nodup) ∧
      (k ∉ keysOf m.entries →
        putPrev hash m k v = none ∧
        (putAfter hash m k v).size = m.size + 1 ∧
        (putAfter hash m k v).entries.Perm ((k, v) :: m.entries) ∧
        (keysOf (putAfter hash m k v).entries).Nodup) := by
  rcases putSeq_inv ps (HashMap.new : HashMap K V) (Inv_new hash) with
    ⟨ms, hseq, hInvs⟩
  rcases put_spec hInv k v with ⟨r, m', hput, hInv', _, _, hfr, hpres⟩
  have hA : putAfter hash m k v = m' := by rw [putAfter, hput]
  have hP : putPrev hash m k v = r := by rw [putPrev, hput]
  refine ⟨by rw [hseq]; rfl, ?_, ?_, ?_⟩
  · rw [putSeqAfter, hseq]
    exact hInvs.2.1
  · intro hw
    rcases hpres w hw with ⟨hr, hsz, hperm⟩
    exact ⟨by rw [hP, hr], by rw [hA, hsz], by rw [hA]; exact hperm,
      by rw [hA]; exact hInv'.2.1⟩
  · intro hk
    rcases hfr hk with ⟨hr, hsz, hperm, _⟩
    exact ⟨by rw [hP, hr], by rw [hA, hsz], by rw [hA]; exact hperm,
      by rw [hA]; exact hInv'.2.1⟩

/-- C4: growth trigger.  Inserting any list of pairwise-distinct keys into
a fresh map succeeds and leaves the bucket count on the `lenAfter` schedule
(so 7 distinct keys give bucket count 16 and 16 distinct keys give 32);
moreover a single `put` from any invariant state either keeps `capacity` or
exactly doubles it, never shrinks capacity or the bucket count, and `get`
never changes either. -/
theorem C4_growth {K V : Type} [DecidableEq K] (hash : K → Nat)
    (ps : List (K × V)) (m : HashMap K V) (k : K) (v : V)
    (hInv : Inv hash m) (hnd : (keysOf ps).Nodup) :
    (putSeq hash ps (HashMap.new : HashMap K V)).isSome ∧
      (putSeqAfter hash ps).table.length = lenAfter ps.length ∧
      (ps.length = 7 → (putSeqAfter hash ps).table.length = 16) ∧
      (ps.length = 16 → (putSeqAfter hash ps).table.length = 32) ∧
      ((putAfter hash m k v).capacity = m.capacity ∨
        (putAfter hash m k v).capacity = m.capacity * 2) ∧
      m.capacity ≤ (putAfter hash m k v).capacity ∧
      m.table.length ≤ (putAfter hash m k v).table.length ∧
      (getAfter hash m k).capacity = m.capacity ∧
      (getAfter hash m k).table.length = m.table.length := by
  rcases putSeq_fresh_spec ps (HashMap.new : HashMap K V)
      (Inv_new hash) hnd (by intro k0 _ hc; cases hc) rfl with
    ⟨ms, hseq, _, hsz, hlen, _⟩
  have hS : putSeqAfter hash ps = ms := by rw [putSeqAfter, hseq]; rfl
  have hlen' : (putSeqAfter hash ps).table.length = lenAfter ps.length := by
    rw [hS, hlen, hsz]
    congr 1
    simp [HashMap.new]
  rcases put_spec hInv k v with ⟨r, m', hput, _, hlenf, hcapf, _, _⟩
  have hA : putAfter hash m k v = m' := by rw [putAfter, hput]
  have hcap0 : 0 < m.capacity ∨ 0 ≤ m.capacity := Or.inr (Nat.zero_le _)
  refine ⟨by rw [hseq]; rfl, hlen', ?_, ?_, ?_, ?_, ?_, (getAfter_frame hash m k).1,
    (getAfter_frame hash m k).2.2⟩
  · intro h7
    rw [hlen', h7]
    decide
  · intro h16
    rw [hlen', h16]
    decide
  · rw [hA, hcapf]
    split
    · right
      rfl
    · left
      rfl
  · rw [hA, hcapf]
    split
    · omega
    · omega
  · rw [hA, hlenf]
    rcases Nat.eq_zero_or_pos m.table.length with h0 | hL
    · rw [if_pos h0, h0]
      decide
    · have h0' : ¬m.table.length = 0 := by omega
      rw [if_neg h0']
      split
      · omega
      · omega

/-- C5: rehash preserves all live entries.  A standalone `resize` on an
allocated table of an invariant-satisfying map preserves `size` and the
multiset of stored entries, doubles the bucket count, and every stored
key/value pair is still present — `get` still returns its value. -/
theorem C5_rehash {K V : Type} [DecidableEq K] (hash : K → Nat)
    (m : HashMap K V) (k : K) (v : V)
    (hInv : Inv hash m) (hL : 0 < m.table.length) (hm : (k, v) ∈ m.entries) :
    (resize hash 1 m).isSome ∧
      (resizeAfter hash m).size = m.size ∧
      (resizeAfter hash m).entries.Perm m.entries ∧
      (resizeAfter hash m).table.length = m.table.length * 2 ∧
      (k, v) ∈ (resizeAfter hash m).entries ∧
      getResult hash (resizeAfter hash m) k = some v := by
  rcases resize_spec 0 hInv hL with
    ⟨mr, hres, hsz, _, _, hlen, hperm, hInvr⟩
  have hR : resizeAfter hash m = mr := by rw [resizeAfter, hres]; rfl
  have hmem : (k, v) ∈ mr.entries := hperm.mem_iff.mpr hm
  rcases get_hit_spec hInvr hmem with ⟨hget, _⟩
  exact ⟨by rw [hres]; rfl, by rw [hR]; exact hsz, by rw [hR]; exact hperm,
    by rw [hR]; exact hlen, by rw [hR]; exact hmem, by rw [hR]; exact hget⟩

/-- C6: iteration completeness.  On every map satisfying the invariant a
full traversal of `iter()` yields exactly the stored entries — `size` many,
with pairwise-distinct keys — and yields nothing on a fresh (empty) map. -/
theorem C6_iteration_complete {K V : Type} [DecidableEq K] (hash : K → Nat)
    (m : HashMap K V) (hInv : Inv hash m) :
    traverse m = m.entries ∧
      (traverse m).length = m.size ∧
      (keysOf (traverse m)).Nodup ∧
      traverse (HashMap.new : HashMap K V) = [] := by
  have ht := traverse_eq_entries (m := m) hInv.2.2.1
  refine ⟨ht, by rw [ht, hInv.1], by rw [ht]; exact hInv.2.1, rfl⟩

/-- C7: `put` resizes before indexing.  From an invariant state, after
`put` of a fresh key the new entry sits at the front of the bucket selected
by its hash modulo the *final* (post-resize) bucket count; and when the
resize condition held (unallocated table or `size` at threshold) that final
bucket count is the freshly allocated default (8) or double the old one, so
the index was computed against the post-resize capacity. -/
theorem C7_resize_before_index {K V : Type} [DecidableEq K] (hash : K → Nat)
    (m : HashMap K V) (k : K) (v : V)
    (hInv : Inv hash m) (hk : k ∉ keysOf m.entries) :
    (bucketAt (putAfter hash m k v).table
        (hash k % (putAfter hash m k v).table.length)).peek = some (k, v) ∧
      ((m.table.length = 0 ∨ m.threshold ≤ m.size) →
        (putAfter hash m k v).table.length =
          (if m.table.length = 0 then DEFAULT_CAPACITY else m.table.length * 2)) := by
  rcases put_spec hInv k v with ⟨r, m', hput, _, hlenf, _, hfr, _⟩
  have hA : putAfter hash m k v = m' := by rw [putAfter, hput]
  rcases hfr hk with ⟨_, _, _, hpeek⟩
  refine ⟨by rw [hA]; exact hpeek, ?_⟩
  intro hcond
  rw [hA, hlenf]
  rcases Nat.eq_zero_or_pos m.table.length with h0 | hL
  · rw [if_pos h0, if_pos h0]
  · have hthr : m.threshold ≤ m.size := by
      rcases hcond with h | h
      · omega
      · exact h
    have h0' : ¬m.table.length = 0 := by omega
    rw [if_neg h0', if_pos hthr, if_neg h0']

/-- C8 (amended): iteration order.  `iter()` yields the entries in
bucket-index order and within each bucket in chain order (`traverse m =
m.entries`, the flattening of the chains in bucket order).  The chain order
is most-recently-inserted-first only for buckets `get` has not probed: a
`put` of a fresh key pushes the new entry at the front of its bucket, but a
missed `get` rebuilds the probed bucket with its remaining entries
*reversed* (see the counterexample), so the claimed within-bucket recency
order does not survive `get` calls. -/
theorem C8_iteration_order {K V : Type} [DecidableEq K] (hash : K → Nat)
    (m : HashMap K V) (k : K) (v : V)
    (hInv : Inv hash m) (hk : k ∉ keysOf m.entries) (hL : 0 < m.table.length) :
    traverse m = m.entries ∧
      (bucketAt (putAfter hash m k v).table
        (hash k % (putAfter hash m k v).table.length)).peek = some (k, v) ∧
      (bucketAt (getAfter hash m k).table (hash k % m.table.length)).head =
        (bucketAt m.table (hash k % m.table.length)).head.reverse := by
  rcases put_spec hInv k v with ⟨r, m', hput, _, _, _, hfr, _⟩
  have hA : putAfter hash m k v = m' := by rw [putAfter, hput]
  rcases hfr hk with ⟨_, _, _, hpeek⟩
  rcases get_miss_keys hash hL hk with ⟨_, _, _, hrev, _⟩
  exact ⟨traverse_eq_entries hInv.2.2.1, by rw [hA]; exact hpeek, hrev⟩

/-- C8 counterexample to the claim as stated: after `put 0`, `put 8` (same
bucket under the identity hash, capacity 8) the traversal is
`[(8, 200), (0, 100)]` — most recently inserted first — but after a missed
`get 16` probing that same bucket the traversal is `[(0, 100), (8, 200)]`:
the within-bucket most-recently-inserted-first order did **not** hold for a
sequence containing a `get` call. -/
theorem C8_counterexample :
    HashMap.traverse (putSeqAfter (fun n => n) [(0, 100), (8, 200)]) =
        [(8, 200), (0, 100)] ∧
      HashMap.traverse (HashMap.getAfter (fun n => n)
          (putSeqAfter (fun n => n) [(0, 100), (8, 200)]) 16) =
        [(0, 100), (8, 200)] := by
  decide

/-- C9: chain count invariant.  After any sequence of pushes and pops from
a fresh chain the stored count equals the number of reachable nodes; `pop`
on an empty chain returns an empty result and leaves the chain unchanged;
`pop` on a non-empty chain (with a consistent count) removes and returns
the front entry and decrements the count (the decrement is guarded, hence
floored at zero); popping the last node leaves the count zero and the head
link none. -/
theorem C9_chain_invariant {T : Type} (ops : List (ChainOp T)) (l : LinkedList T)
    (x : T) (xs : List T) (hc : l.size = l.head.length) :
    ((runChainOps LinkedList.new ops).size =
        (runChainOps LinkedList.new ops).head.length) ∧
      (l.head = [] → l.pop = (none, l)) ∧
      (l.head = x :: xs → l.pop = (some x, ⟨xs, l.size - 1⟩) ∧ 0 < l.size) ∧
      (l.head = [x] → (l.pop).2.size = 0 ∧ (l.pop).2.head = []) := by
  refine ⟨runChainOps_consistent ops LinkedList.new rfl, ?_, ?_, ?_⟩
  · intro h
    simp only [LinkedList.pop, h]
  · intro h
    have hpos : 0 < l.size := by
      rw [hc, h]
      simp
    refine ⟨?_, hpos⟩
    simp only [LinkedList.pop, h, if_pos hpos]
  · intro h
    have hsz : l.size = 1 := by
      rw [hc, h]
      rfl
    constructor
    · simp only [LinkedList.pop, h, if_pos (show 0 < l.size by omega)]
      omega
    · simp only [LinkedList.pop, h]

/-- C10: frame effect of a missed `get`.  On a map with an allocated bucket
array and a key not present, `get` returns an empty result, leaves `size`
and the multiset of stored entries unchanged, rebuilds the probed bucket's
chain with its entries reversed, and leaves every other bucket untouched. -/
theorem C10_miss_frame {K V : Type} [DecidableEq K] (hash : K → Nat)
    (m : HashMap K V) (k : K)
    (hL : 0 < m.table.length) (hk : k ∉ keysOf m.entries) :
    getResult hash m k = none ∧
      (getAfter hash m k).size = m.size ∧
      (getAfter hash m k).entries.Perm m.entries ∧
      (bucketAt (getAfter hash m k).table (hash k % m.table.length)).head =
        (bucketAt m.table (hash k % m.table.length)).head.reverse ∧
      (∀ j, j ≠ hash k % m.table.length →
        bucketAt (getAfter hash m k).table j = bucketAt m.table j) := by
  exact get_miss_keys hash hL hk

end Claims

/-! ### Concrete witnesses for the claim theorems -/

section Witnesses

open HashMap

/-- Witness for C1 at a concrete two-entry map under the identity hash. -/
theorem C1_destructive_get_witness :
    (Inv (fun n => n) (putSeqAfter (fun n => n) [(1, 10), (2, 20)]) ∧ (1, 10) ∈ (putSeqAfter (fun n => n) [(1, 10), (2, 20)]).entries ∧
        5 ∉ keysOf (putSeqAfter (fun n => n) [(1, 10), (2, 20)]).entries) ∧
      (getResult (fun n => n) (putSeqAfter (fun n => n) [(1, 10), (2, 20)]) 1 = some 10 ∧
        (putSeqAfter (fun n => n) [(1, 10), (2, 20)]).size = (getAfter (fun n => n) (putSeqAfter (fun n => n) [(1, 10), (2, 20)]) 1).size + 1 ∧
        (getAfter (fun n => n) (putSeqAfter (fun n => n) [(1, 10), (2, 20)]) 1).entries.Perm
          (eraseKey 1 (putSeqAfter (fun n => n) [(1, 10), (2, 20)]).entries) ∧
        1 ∉ keysOf (getAfter (fun n => n) (putSeqAfter (fun n => n) [(1, 10), (2, 20)]) 1).entries ∧
        getResult (fun n => n) (getAfter (fun n => n) (putSeqAfter (fun n => n) [(1, 10), (2, 20)]) 1) 1 = none ∧
        (getAfter (fun n => n) (getAfter (fun n => n) (putSeqAfter (fun n => n) [(1, 10), (2, 20)]) 1) 1).size =
          (getAfter (fun n => n) (putSeqAfter (fun n => n) [(1, 10), (2, 20)]) 1).size ∧
        (0 < (putSeqAfter (fun n => n) [(1, 10), (2, 20)]).table.length →
          getResult (fun n => n) (putSeqAfter (fun n => n) [(1, 10), (2, 20)]) 5 = none ∧
          (getAfter (fun n => n) (putSeqAfter (fun n => n) [(1, 10), (2, 20)]) 5).size = (putSeqAfter (fun n => n) [(1, 10), (2, 20)]).size)) :=
  ⟨⟨by decide, by decide, by decide⟩,
    C1_destructive_get (fun n => n) (putSeqAfter (fun n => n) [(1, 10), (2, 20)]) 1 5 10 (by decide) (by decide) (by decide)⟩

/-- Witness for C2 at a concrete two-entry map under the identity hash. -/
theorem C2_totality_witness :
    Inv (fun n => n) (putSeqAfter (fun n => n) [(1, 10), (2, 20)]) ∧
      ((put (fun n => n) 2 (putSeqAfter (fun n => n) [(1, 10), (2, 20)]) 1 7).isSome ∧
        (0 < (putSeqAfter (fun n => n) [(1, 10), (2, 20)]).table.length → (get (fun n => n) (putSeqAfter (fun n => n) [(1, 10), (2, 20)]) 1).isSome) ∧
        get (fun n => n) (HashMap.new : HashMap Nat Nat) 3 = none) :=
  ⟨by decide, C2_totality (fun n => n) (putSeqAfter (fun n => n) [(1, 10), (2, 20)]) 1 3 7 (by decide)⟩

/-- Witness for C3: a put sequence with an overwrite, plus an overwriting
put on a concrete map. -/
theorem C3_put_uniqueness_witness :
    Inv (fun n => n) (putSeqAfter (fun n => n) [(1, 10), (2, 20)]) ∧
      ((putSeq (fun n => n) [(1, 10), (9, 90), (1, 11)]
          (HashMap.new : HashMap Nat Nat)).isSome ∧
        (keysOf (putSeqAfter (fun n => n) [(1, 10), (9, 90), (1, 11)]).entries).Nodup ∧
        ((1, 10) ∈ (putSeqAfter (fun n => n) [(1, 10), (2, 20)]).entries →
          putPrev (fun n => n) (putSeqAfter (fun n => n) [(1, 10), (2, 20)]) 1 99 = some 10 ∧
          (putAfter (fun n => n) (putSeqAfter (fun n => n) [(1, 10), (2, 20)]) 1 99).size = (putSeqAfter (fun n => n) [(1, 10), (2, 20)]).size ∧
          (putAfter (fun n => n) (putSeqAfter (fun n => n) [(1, 10), (2, 20)]) 1 99).entries.Perm
            ((1, 99) :: eraseKey 1 (putSeqAfter (fun n => n) [(1, 10), (2, 20)]).entries) ∧
          (keysOf (putAfter (fun n => n) (putSeqAfter (fun n => n) [(1, 10), (2, 20)]) 1 99).entries).Nodup) ∧
        (1 ∉ keysOf (putSeqAfter (fun n => n) [(1, 10), (2, 20)]).entries →
          putPrev (fun n => n) (putSeqAfter (fun n => n) [(1, 10), (2, 20)]) 1 99 = none ∧
          (putAfter (fun n => n) (putSeqAfter (fun n => n) [(1, 10), (2, 20)]) 1 99).size = (putSeqAfter (fun n => n) [(1, 10), (2, 20)]).size + 1 ∧
          (putAfter (fun n => n) (putSeqAfter (fun n => n) [(1, 10), (2, 20)]) 1 99).entries.Perm ((1, 99) :: (putSeqAfter (fun n => n) [(1, 10), (2, 20)]).entries) ∧
          (keysOf (putAfter (fun n => n) (putSeqAfter (fun n => n) [(1, 10), (2, 20)]) 1 99).entries).Nodup)) :=
  ⟨by decide,
    C3_put_uniqueness (fun n => n) [(1, 10), (9, 90), (1, 11)] (putSeqAfter (fun n => n) [(1, 10), (2, 20)]) 1 99 10 (by decide)⟩

/-- Witness for C4: seven distinct keys grow the table to 16 buckets. -/
theorem C4_growth_witness :
    (Inv (fun n => n) (putSeqAfter (fun n => n) [(1, 10), (2, 20)]) ∧
        (keysOf ([(0, 0), (1, 1), (2, 2), (3, 3), (4, 4), (5, 5), (6, 6)] :
          List (Nat × Nat))).Nodup) ∧
      ((putSeq (fun n => n) [(0, 0), (1, 1), (2, 2), (3, 3), (4, 4), (5, 5), (6, 6)]
          (HashMap.new : HashMap Nat Nat)).isSome ∧
        (putSeqAfter (fun n => n)
            [(0, 0), (1, 1), (2, 2), (3, 3), (4, 4), (5, 5), (6, 6)]).table.length =
          lenAfter ([(0, 0), (1, 1), (2, 2), (3, 3), (4, 4), (5, 5), (6, 6)] :
            List (Nat × Nat)).length ∧
        (([(0, 0), (1, 1), (2, 2), (3, 3), (4, 4), (5, 5), (6, 6)] :
            List (Nat × Nat)).length = 7 →
          (putSeqAfter (fun n => n)
            [(0, 0), (1, 1), (2, 2), (3, 3), (4, 4), (5, 5), (6, 6)]).table.length = 16) ∧
        (([(0, 0), (1, 1), (2, 2), (3, 3), (4, 4), (5, 5), (6, 6)] :
            List (Nat × Nat)).length = 16 →
          (putSeqAfter (fun n => n)
            [(0, 0), (1, 1), (2, 2), (3, 3), (4, 4), (5, 5), (6, 6)]).table.length = 32) ∧
        ((putAfter (fun n => n) (putSeqAfter (fun n => n) [(1, 10), (2, 20)]) 1 5).capacity = (putSeqAfter (fun n => n) [(1, 10), (2, 20)]).capacity ∨
          (putAfter (fun n => n) (putSeqAfter (fun n => n) [(1, 10), (2, 20)]) 1 5).capacity = (putSeqAfter (fun n => n) [(1, 10), (2, 20)]).capacity * 2) ∧
        (putSeqAfter (fun n => n) [(1, 10), (2, 20)]).capacity ≤ (putAfter (fun n => n) (putSeqAfter (fun n => n) [(1, 10), (2, 20)]) 1 5).capacity ∧
        (putSeqAfter (fun n => n) [(1, 10), (2, 20)]).table.length ≤ (putAfter (fun n => n) (putSeqAfter (fun n => n) [(1, 10), (2, 20)]) 1 5).table.length ∧
        (getAfter (fun n => n) (putSeqAfter (fun n => n) [(1, 10), (2, 20)]) 1).capacity = (putSeqAfter (fun n => n) [(1, 10), (2, 20)]).capacity ∧
        (getAfter (fun n => n) (putSeqAfter (fun n => n) [(1, 10), (2, 20)]) 1).table.length = (putSeqAfter (fun n => n) [(1, 10), (2, 20)]).table.length) :=
  ⟨⟨by decide, by decide⟩,
    C4_growth (fun n => n) [(0, 0), (1, 1), (2, 2), (3, 3), (4, 4), (5, 5), (6, 6)]
      (putSeqAfter (fun n => n) [(1, 10), (2, 20)]) 1 5 (by decide) (by decide)⟩

/-- Witness for C5: a standalone resize of a concrete two-entry map. -/
theorem C5_rehash_witness :
    (Inv (fun n => n) (putSeqAfter (fun n => n) [(1, 10), (2, 20)]) ∧ 0 < (putSeqAfter (fun n => n) [(1, 10), (2, 20)]).table.length ∧ (1, 10) ∈ (putSeqAfter (fun n => n) [(1, 10), (2, 20)]).entries) ∧
      ((resize (fun n => n) 1 (putSeqAfter (fun n => n) [(1, 10), (2, 20)])).isSome ∧
        (resizeAfter (fun n => n) (putSeqAfter (fun n => n) [(1, 10), (2, 20)])).size = (putSeqAfter (fun n => n) [(1, 10), (2, 20)]).size ∧
        (resizeAfter (fun n => n) (putSeqAfter (fun n => n) [(1, 10), (2, 20)])).entries.Perm (putSeqAfter (fun n => n) [(1, 10), (2, 20)]).entries ∧
        (resizeAfter (fun n => n) (putSeqAfter (fun n => n) [(1, 10), (2, 20)])).table.length = (putSeqAfter (fun n => n) [(1, 10), (2, 20)]).table.length * 2 ∧
        (1, 10) ∈ (resizeAfter (fun n => n) (putSeqAfter (fun n => n) [(1, 10), (2, 20)])).entries ∧
        getResult (fun n => n) (resizeAfter (fun n => n) (putSeqAfter (fun n => n) [(1, 10), (2, 20)])) 1 = some 10) :=
  ⟨⟨by decide, by decide, by decide⟩,
    C5_rehash (fun n => n) (putSeqAfter (fun n => n) [(1, 10), (2, 20)]) 1 10 (by decide) (by decide) (by decide)⟩

/-- Witness for C6 at a concrete two-entry map. -/
theorem C6_iteration_complete_witness :
    Inv (fun n => n) (putSeqAfter (fun n => n) [(1, 10), (2, 20)]) ∧
      (traverse (putSeqAfter (fun n => n) [(1, 10), (2, 20)]) = (putSeqAfter (fun n => n) [(1, 10), (2, 20)]).entries ∧
        (traverse (putSeqAfter (fun n => n) [(1, 10), (2, 20)])).length = (putSeqAfter (fun n => n) [(1, 10), (2, 20)]).size ∧
        (keysOf (traverse (putSeqAfter (fun n => n) [(1, 10), (2, 20)]))).Nodup ∧
        traverse (HashMap.new : HashMap Nat Nat) = []) :=
  ⟨by decide, C6_iteration_complete (fun n => n) (putSeqAfter (fun n => n) [(1, 10), (2, 20)]) (by decide)⟩

/-- Witness for C7 at a concrete six-entry map sitting exactly at the
resize threshold, with a fresh key. -/
theorem C7_resize_before_index_witness :
    (Inv (fun n => n) (putSeqAfter (fun n => n) [(0, 0), (1, 1), (2, 2), (3, 3), (4, 4), (5, 5)]) ∧ 20 ∉ keysOf (putSeqAfter (fun n => n) [(0, 0), (1, 1), (2, 2), (3, 3), (4, 4), (5, 5)]).entries) ∧
      ((bucketAt (putAfter (fun n => n) (putSeqAfter (fun n => n) [(0, 0), (1, 1), (2, 2), (3, 3), (4, 4), (5, 5)]) 20 1).table
          (20 % (putAfter (fun n => n) (putSeqAfter (fun n => n) [(0, 0), (1, 1), (2, 2), (3, 3), (4, 4), (5, 5)]) 20 1).table.length)).peek = some (20, 1) ∧
        (((putSeqAfter (fun n => n) [(0, 0), (1, 1), (2, 2), (3, 3), (4, 4), (5, 5)]).table.length = 0 ∨ (putSeqAfter (fun n => n) [(0, 0), (1, 1), (2, 2), (3, 3), (4, 4), (5, 5)]).threshold ≤ (putSeqAfter (fun n => n) [(0, 0), (1, 1), (2, 2), (3, 3), (4, 4), (5, 5)]).size) →
          (putAfter (fun n => n) (putSeqAfter (fun n => n) [(0, 0), (1, 1), (2, 2), (3, 3), (4, 4), (5, 5)]) 20 1).table.length =
            (if (putSeqAfter (fun n => n) [(0, 0), (1, 1), (2, 2), (3, 3), (4, 4), (5, 5)]).table.length = 0 then DEFAULT_CAPACITY
             else (putSeqAfter (fun n => n) [(0, 0), (1, 1), (2, 2), (3, 3), (4, 4), (5, 5)]).table.length * 2))) :=
  ⟨⟨by decide, by decide⟩,
    C7_resize_before_index (fun n => n) (putSeqAfter (fun n => n) [(0, 0), (1, 1), (2, 2), (3, 3), (4, 4), (5, 5)]) 20 1 (by decide) (by decide)⟩

/-- Witness for C8 (amended) at the same two-entry one-bucket map as the
counterexample. -/
theorem C8_iteration_order_witness :
    (Inv (fun n => n) (putSeqAfter (fun n => n) [(0, 100), (8, 200)]) ∧ 16 ∉ keysOf (putSeqAfter (fun n => n) [(0, 100), (8, 200)]).entries ∧ 0 < (putSeqAfter (fun n => n) [(0, 100), (8, 200)]).table.length) ∧
      (traverse (putSeqAfter (fun n => n) [(0, 100), (8, 200)]) = (putSeqAfter (fun n => n) [(0, 100), (8, 200)]).entries ∧
        (bucketAt (putAfter (fun n => n) (putSeqAfter (fun n => n) [(0, 100), (8, 200)]) 16 300).table
          (16 % (putAfter (fun n => n) (putSeqAfter (fun n => n) [(0, 100), (8, 200)]) 16 300).table.length)).peek = some (16, 300) ∧
        (bucketAt (getAfter (fun n => n) (putSeqAfter (fun n => n) [(0, 100), (8, 200)]) 16).table
            (16 % (putSeqAfter (fun n => n) [(0, 100), (8, 200)]).table.length)).head =
          (bucketAt (putSeqAfter (fun n => n) [(0, 100), (8, 200)]).table (16 % (putSeqAfter (fun n => n) [(0, 100), (8, 200)]).table.length)).head.reverse) :=
  ⟨⟨by decide, by decide, by decide⟩,
    C8_iteration_order (fun n => n) (putSeqAfter (fun n => n) [(0, 100), (8, 200)]) 16 300 (by decide) (by decide) (by decide)⟩

/-- Witness for C9 at a concrete chain and operation sequence. -/
theorem C9_chain_invariant_witness :
    (LinkedList.mk [3, 4] 2 : LinkedList Nat).size =
        (LinkedList.mk [3, 4] 2 : LinkedList Nat).head.length ∧
      (((runChainOps LinkedList.new
            [ChainOp.push 5, ChainOp.push 7, ChainOp.pop]).size =
          (runChainOps LinkedList.new
            [ChainOp.push 5, ChainOp.push 7, ChainOp.pop]).head.length) ∧
        ((LinkedList.mk [3, 4] 2 : LinkedList Nat).head = [] →
          (LinkedList.mk [3, 4] 2 : LinkedList Nat).pop =
            (none, LinkedList.mk [3, 4] 2)) ∧
        ((LinkedList.mk [3, 4] 2 : LinkedList Nat).head = 3 :: [4] →
          (LinkedList.mk [3, 4] 2 : LinkedList Nat).pop =
              (some 3, ⟨[4], (LinkedList.mk [3, 4] 2 : LinkedList Nat).size - 1⟩) ∧
            0 < (LinkedList.mk [3, 4] 2 : LinkedList Nat).size) ∧
        ((LinkedList.mk [3, 4] 2 : LinkedList Nat).head = [3] →
          ((LinkedList.mk [3, 4] 2 : LinkedList Nat).pop).2.size = 0 ∧
            ((LinkedList.mk [3, 4] 2 : LinkedList Nat).pop).2.head = [])) :=
  ⟨by decide,
    C9_chain_invariant [ChainOp.push 5, ChainOp.push 7, ChainOp.pop]
      (LinkedList.mk [3, 4] 2) 3 [4] (by decide)⟩

/-- Witness for C10: a missed get probing the two-entry bucket of a
concrete map reverses exactly that bucket. -/
theorem C10_miss_frame_witness :
    (0 < (putSeqAfter (fun n => n) [(0, 100), (8, 200)]).table.length ∧ 16 ∉ keysOf (putSeqAfter (fun n => n) [(0, 100), (8, 200)]).entries) ∧
      (getResult (fun n => n) (putSeqAfter (fun n => n) [(0, 100), (8, 200)]) 16 = none ∧
        (getAfter (fun n => n) (putSeqAfter (fun n => n) [(0, 100), (8, 200)]) 16).size = (putSeqAfter (fun n => n) [(0, 100), (8, 200)]).size ∧
        (getAfter (fun n => n) (putSeqAfter (fun n => n) [(0, 100), (8, 200)]) 16).entries.Perm (putSeqAfter (fun n => n) [(0, 100), (8, 200)]).entries ∧
        (bucketAt (getAfter (fun n => n) (putSeqAfter (fun n => n) [(0, 100), (8, 200)]) 16).table
            (16 % (putSeqAfter (fun n => n) [(0, 100), (8, 200)]).table.length)).head =
          (bucketAt (putSeqAfter (fun n => n) [(0, 100), (8, 200)]).table (16 % (putSeqAfter (fun n => n) [(0, 100), (8, 200)]).table.length)).head.reverse ∧
        (∀ j, j ≠ 16 % (putSeqAfter (fun n => n) [(0, 100), (8, 200)]).table.length →
          bucketAt (getAfter (fun n => n) (putSeqAfter (fun n => n) [(0, 100), (8, 200)]) 16).table j =
            bucketAt (putSeqAfter (fun n => n) [(0, 100), (8, 200)]).table j)) :=
  ⟨⟨by decide, by decide⟩,
    C10_miss_frame (fun n => n) (putSeqAfter (fun n => n) [(0, 100), (8, 200)]) 16 (by decide) (by decide)⟩

end Witnesses



end HashMapSpec
